import Mathlib

/-!
Shallow embedding of the core algorithms of the `gist` video-editing backend
(`backend/app/audio/edgetts_meta.py`, `backend/app/jobs/index_job.py`,
`backend/app/jobs/render_job.py`), together with theorems settling the
specification claims about them.

Modelling conventions:
* Python `float` is modelled as `ℚ` (the algorithms only use field operations
  and comparisons, never bit-level float behaviour).
* Python `str` is modelled as `List Char` (a Python string is a sequence of
  code points).
* Python functions that `raise` are modelled as `Except` with a structured
  error type carrying the data the exception message carries.
* Python dicts are modelled as insertion-ordered association lists: updating
  an existing key keeps its position, a new key is appended, and iteration is
  list order, matching CPython dict semantics.
-/

namespace Gist

/-! ### Python primitive helpers -/

/-- Python whitespace test used by `str.strip()` and the `\s` regex class. -/
def isPySpace (c : Char) : Bool := c.isWhitespace

/-- Python `str.strip()`. -/
def pyStrip (s : List Char) : List Char :=
  ((s.dropWhile isPySpace).reverse.dropWhile isPySpace).reverse

/-- Python `str.rstrip()`. -/
def pyRStrip (s : List Char) : List Char :=
  (s.reverse.dropWhile isPySpace).reverse

/-- Computable floor on `ℚ` (`Rat.floor`, proved equal to `⌊·⌋` below). -/
def pyFloor (x : ℚ) : ℤ := Rat.floor x

/-- Computable ceiling on `ℚ` (as `-⌊-x⌋`). -/
def pyCeil (x : ℚ) : ℤ := -(pyFloor (-x))

/-- Python `int(x)`: truncation toward zero. -/
def pyTrunc (x : ℚ) : ℤ := if 0 ≤ x then pyFloor x else pyCeil x

/-- Python `round(x)`: nearest integer, ties to even. -/
def pyRound (x : ℚ) : ℤ :=
  let f := pyFloor x
  let r := x - (f : ℚ)
  if r < 1/2 then f else if 1/2 < r then f + 1 else if f % 2 = 0 then f else f + 1

/-- Python `round(x, 3)`. -/
def pyRound3 (x : ℚ) : ℚ := (pyRound (x * 1000) : ℚ) / 1000

/-- Insertion-ordered association list lookup (Python `dict.get`). -/
def alookup {κ ν : Type} [DecidableEq κ] : List (κ × ν) → κ → Option ν
  | [], _ => none
  | (k1, v) :: rest, k => if k = k1 then some v else alookup rest k

/-- Insertion-ordered association list update of an existing key (Python
`d[k] = v` when `k` is present keeps its position; a fresh key is appended). -/
def dictSet {κ ν : Type} [DecidableEq κ] : List (κ × ν) → κ → ν → List (κ × ν)
  | [], k, v => [(k, v)]
  | (k1, v1) :: rest, k, v =>
    if k = k1 then (k, v) :: rest else (k1, v1) :: dictSet rest k v

/-- Python substring test `needle in hay` (contiguous occurrence). -/
def isSubstring (needle : List Char) : List Char → Bool
  | [] => needle.isEmpty
  | c :: rest => needle.isPrefixOf (c :: rest) || isSubstring needle rest

/-- Stable insertion keeping elements with `ge`-larger-or-equal key in front:
the new element is placed after every element whose key is `≥` its own. -/
def insertDescBy {α : Type} (ge : α → α → Bool) (x : α) : List α → List α
  | [] => [x]
  | y :: ys => if ge y x then y :: insertDescBy ge x ys else x :: y :: ys

/-- Stable descending sort (Python `list.sort(key=…, reverse=True)`): sorted by
`ge` with ties kept in original order; any stable sort produces this list. -/
def stableSortDesc {α : Type} (ge : α → α → Bool) (l : List α) : List α :=
  l.foldl (fun acc x => insertDescBy ge x acc) []

/-! ### `audio/edgetts_meta.py` — timing model -/

/-- The `_PUNCT` set of `edgetts_meta.py`. -/
def PUNCT : List Char := "，。！？；：、,.!?;:…".data

/-- Membership in `_PUNCT`. -/
def isPunct (c : Char) : Bool := PUNCT.contains c

/-- A "spoken" character: CJK ideograph, Latin letter or digit
(the character classes kept by `_clean_spoken`). -/
def isSpokenChar (c : Char) : Bool :=
  ('一' ≤ c && c ≤ '鿿') || ('A' ≤ c && c ≤ 'Z') ||
    ('a' ≤ c && c ≤ 'z') || ('0' ≤ c && c ≤ '9')

/-- `_visible_len_zh`: strip all whitespace, skip punctuation, count every
remaining character as 1 (the CJK/letter/digit branch and the fallback branch
of the source both add 1). -/
def visible_len_zh (s : List Char) : ℕ :=
  ((s.filter (fun c => !(isPySpace c))).filter (fun c => !(isPunct c))).length

/-- State of the `split_one_line` character loop: emitted chunks, current
buffer, its visible length, and the last punctuation cut position
(`-1` when none) with the visible length up to it. -/
structure SplitLineState where
  out : List (List Char)
  cur : List Char
  cur_n : ℕ
  last_punct_pos : ℤ
  last_punct_n : ℕ
deriving Repr, Inhabited

/-- The punctuation-info recomputation loop at the end of `flush_at`. -/
def recomputePunct (cur : List Char) : ℤ × ℕ :=
  let t := cur.enum.foldl
    (fun (a : ℤ × ℕ × ℕ) (p : ℕ × Char) =>
      if isPunct p.2 then (((p.1 : ℤ) + 1), a.2.2, a.2.2) else (a.1, a.2.1, a.2.2 + 1))
    (-1, 0, 0)
  (t.1, t.2.1)

/-- `flush_at(pos)` of `split_one_line`. -/
def flushAt (st : SplitLineState) (pos : ℕ) : SplitLineState :=
  if pos = 0 then st
  else
    let rest := st.cur.drop pos
    let pq := recomputePunct rest
    { out := st.out ++ [st.cur.take pos], cur := rest, cur_n := visible_len_zh rest,
      last_punct_pos := pq.1, last_punct_n := pq.2 }

/-- The hard-cut search loop of `split_one_line`: first index whose running
non-punctuation count exceeds `mx`, `0` when none is found. -/
def hardCutIdx : List Char → ℕ → ℕ → ℕ → ℕ
  | [], _, _, _ => 0
  | c :: rest, tmpn, i, mx =>
    let t := if isPunct c then tmpn else tmpn + 1
    if mx < t then i else hardCutIdx rest t (i + 1) mx

/-- One character of the `split_one_line` main loop. -/
def splitLineStep (maxChars : ℕ) (st : SplitLineState) (ch : Char) : SplitLineState :=
  let cur := st.cur ++ [ch]
  let st1 : SplitLineState :=
    if isPunct ch then
      { out := st.out, cur := cur, cur_n := st.cur_n,
        last_punct_pos := (cur.length : ℤ), last_punct_n := st.cur_n }
    else
      { out := st.out, cur := cur, cur_n := st.cur_n + 1,
        last_punct_pos := st.last_punct_pos, last_punct_n := st.last_punct_n }
  if st1.cur_n ≤ maxChars then st1
  else if 0 < st1.last_punct_pos ∧ max 4 (maxChars / 2) ≤ st1.last_punct_n then
    flushAt st1 st1.last_punct_pos.toNat
  else
    let cut := hardCutIdx st1.cur 0 0 maxChars
    let cut2 := if cut = 0 then max 1 (st1.cur.length - 1) else cut
    flushAt st1 cut2

/-- `split_one_line(text, max_chars=…)`. -/
def split_one_line (text : List Char) (maxChars0 : ℤ) : List (List Char) :=
  let s := (pyStrip text).filter (fun c => !(isPySpace c))
  if s.isEmpty then []
  else
    let maxChars : ℕ := (max 1 maxChars0).toNat
    let st := s.foldl (splitLineStep maxChars) ⟨[], [], 0, -1, 0⟩
    let out := if (pyStrip st.cur).isEmpty then st.out else st.out ++ [st.cur]
    out.filter (fun x => !(x.isEmpty) && !((pyStrip x).isEmpty))

/-- `WordItem` (the `end` field is named `stop`, `end` being reserved). -/
structure WordItem where
  text : List Char
  start : ℚ
  stop : ℚ
deriving DecidableEq, Repr, Inhabited

/-- `SentenceItem`. -/
structure SentenceItem where
  text : List Char
  start : ℚ
  stop : ℚ
deriving DecidableEq, Repr, Inhabited

/-- The `neg` score sentinel of `_partition_words_by_part_weights`. -/
def NEGSENT : ℚ := -(10 ^ 18)

/-- The inner `for a in range(i-1, j)` best-predecessor search of the DP. -/
def dpInner (dp : List ℚ) (en st : List ℚ) (ed : ℚ) (i j : ℕ) : ℚ × ℤ :=
  (List.range' (i - 1) (j - (i - 1))).foldl
    (fun (best : ℚ × ℤ) a =>
      let dpa := dp.getD a NEGSENT
      if dpa ≤ NEGSENT / 2 then best
      else
        let dur := en.getD (j - 1) 0 - st.getD a 0
        if dur ≤ 0 then best
        else
          let durPen := |dur - ed| / ed
          let score := -(3/4) * durPen
          let val := dpa + score
          if best.1 < val then (val, (a : ℤ)) else best)
    (NEGSENT, -1)

/-- The `for i in range(1, k+1)` DP loop; returns the final `dp` row and the
back-pointer rows `bp[1] … bp[k]`. -/
def dpLoop (en st : List ℚ) (exp : List ℚ) (n k : ℕ) : List ℚ × List (List ℤ) :=
  (List.range' 1 k).foldl
    (fun (acc : List ℚ × List (List ℤ)) i =>
      let dp := acc.1
      let ed := max (1/4) (exp.getD (i - 1) 0)
      let row := (List.range (n + 1)).map (fun j =>
        if j < i then (NEGSENT, (-1 : ℤ))
        else
          let r := dpInner dp en st ed i j
          if r.2 < 0 then (NEGSENT, (-1 : ℤ)) else r)
      (row.map Prod.fst, acc.2 ++ [row.map Prod.snd]))
    (0 :: List.replicate n NEGSENT, [])

/-- The back-pointer walk producing `bounds[0] … bounds[k]`; a negative
back-pointer leaves the lower bounds at `0` (the Python `break`). -/
def backtrackBounds (rows : List (List ℤ)) : ℕ → ℕ → List ℕ
  | 0, j => [j]
  | i + 1, j =>
    let a := (rows.getD i []).getD j (-1)
    if a < 0 then List.replicate (i + 1) 0 ++ [j]
    else backtrackBounds rows i a.toNat ++ [j]

/-- The greedy word-count fallback used when no feasible DP path exists. -/
def greedyBounds (ws : List ℤ) (n k : ℕ) : List (ℕ × ℕ) :=
  let r := (List.range (k - 1)).foldl
    (fun (acc : List (ℕ × ℕ) × ℕ) i =>
      let a := acc.2
      let wsum : ℤ := (ws.drop i).sum
      let target : ℚ := ((n - a : ℕ) : ℚ) * ((ws.getD i 1 : ℚ) / (wsum : ℚ))
      let take : ℤ := max 1 (pyRound target)
      let b : ℕ := min (n - (k - i - 1)) (a + take.toNat)
      (acc.1 ++ [(a, b)], b))
    ([], 0)
  r.1 ++ [(r.2, n)]

/-- `_partition_words_by_part_weights`. -/
def partition_words_by_part_weights (words : List WordItem) (partWeights : List ℤ)
    (totalDur : ℚ) : List (ℕ × ℕ) :=
  let n := words.length
  let k := partWeights.length
  if k = 0 then []
  else if n = 0 then []
  else if n ≤ k then (List.range n).map (fun i => (i, i + 1))
  else
    let ws := partWeights.map (fun w => max 1 w)
    let sw0 : ℚ := (ws.map (fun z => (z : ℚ))).sum
    let sw := if sw0 = 0 then 1 else sw0
    let exp := ws.map (fun w => totalDur * ((w : ℚ) / sw))
    let st := words.map (·.start)
    let en := words.map (·.stop)
    let rows := (dpLoop en st exp n k).2
    if ((rows.getD (k - 1) []).getD n (-1)) < 0 then greedyBounds ws n k
    else (backtrackBounds rows k n).zip ((backtrackBounds rows k n).tail)

/-- A unit produced by `build_units_from_meta` (`{text, start, end}`). -/
structure BUnit where
  text : List Char
  start : ℚ
  stop : ℚ
deriving DecidableEq, Repr, Inhabited

/-- The parts-merging loop of `build_units_from_meta` used when there are more
parts than words. -/
def mergePartsToLocal (parts : List (List Char)) (maxSub : ℕ) : List (List Char) :=
  let r := parts.foldl
    (fun (acc : List (List Char) × List Char) p =>
      if acc.2.isEmpty then (acc.1, p)
      else if visible_len_zh (acc.2 ++ p) ≤ maxSub then (acc.1, acc.2 ++ p)
      else (acc.1 ++ [acc.2], p))
    ([], [])
  if r.2.isEmpty then r.1 else r.1 ++ [r.2]

/-- Processing of one sentence inside `build_units_from_meta`; the word cursor
`wi` is carried as the not-yet-consumed suffix of the word list. -/
def sentenceUnits (maxSub : ℕ) (acc : List BUnit × List WordItem) (s : SentenceItem) :
    List BUnit × List WordItem :=
  let units := acc.1
  let rem := acc.2
  if s.stop ≤ s.start + 1/10000 then (units, rem)
  else
    let rem2 := rem.dropWhile (fun w => w.stop ≤ s.start + 1/10000)
    let loc := rem2.takeWhile (fun w => w.start < s.stop - 1/10000)
    let parts := ((split_one_line s.text (maxSub : ℤ)).map pyStrip).filter (fun p => !(p.isEmpty))
    if parts.isEmpty then (units, rem2)
    else if loc.isEmpty then
      let per := max (1/20) ((s.stop - s.start) / (parts.length : ℚ))
      let r := parts.foldl
        (fun (a : List BUnit × ℚ) p =>
          (a.1 ++ [⟨p, a.2, min s.stop (a.2 + per)⟩], a.2 + per))
        ([], s.start)
      let newUnits := units ++ r.1
      let newUnits2 := match newUnits.getLast? with
        | none => newUnits
        | some u => newUnits.dropLast ++ [⟨u.text, u.start, s.stop⟩]
      (newUnits2, rem2)
    else
      let parts2 :=
        if loc.length < parts.length then
          let merged := mergePartsToLocal parts maxSub
          if merged.length ≤ loc.length then merged else parts.take loc.length
        else parts
      let partWeights := parts2.map (fun p => (max 1 (visible_len_zh p) : ℤ))
      let groups := partition_words_by_part_weights loc partWeights (s.stop - s.start)
      let newUs := (parts2.zip groups).map (fun pg =>
        let a := pg.2.1
        let b := min loc.length (max (a + 1) pg.2.2)
        ((⟨pg.1, (loc.getD a default).start, (loc.getD (b - 1) default).stop⟩ : BUnit)))
      (units ++ newUs, rem2.drop loc.length)

/-- The final "Fix monotonicity + clamp" loop of `build_units_from_meta`. -/
def fixUnitsMono : ℚ → List BUnit → List BUnit
  | _, [] => []
  | prev, u :: rest =>
    let st := max prev u.start
    let en := max (st + 1/50) u.stop
    ⟨u.text, st, en⟩ :: fixUnitsMono en rest

/-- `build_units_from_meta`. -/
def build_units_from_meta (words : List WordItem) (sents0 : List SentenceItem)
    (maxSubChars : ℤ) : List BUnit :=
  let maxSub : ℕ := (max 1 maxSubChars).toNat
  if sents0.isEmpty ∧ words.isEmpty then []
  else
    let sents :=
      if sents0.isEmpty then
        [(⟨(words.map (·.text)).flatten, (words.headD default).start,
           (words.getLastD default).stop⟩ : SentenceItem)]
      else sents0
    fixUnitsMono 0 (sents.foldl (sentenceUnits maxSub) ([], words)).1

/-- `_clean_spoken`: drop whitespace, keep only spoken characters. -/
def cleanSpoken (s : List Char) : List Char :=
  (s.filter (fun c => !(isPySpace c))).filter isSpokenChar

/-- Structured form of the errors raised by `align_script_parts_to_words`;
`mismatch` carries the first differing offset and the two context snippets
that the source interpolates into its message. -/
inductive AlignError where
  | noWordBoundary
  | emptyWordTokens
  | punctOnlyPart
  | mismatch (offset : ℕ) (scriptSnip jsonSnip : List Char)
deriving DecidableEq, Repr

/-- The first-mismatch scan `while m < mx and s[m] == w[m]: m += 1`. -/
def firstDiffIdx : List Char → List Char → ℕ
  | a :: as, b :: bs => if a = b then firstDiffIdx as bs + 1 else 0
  | _, _ => 0

/-- The context slice `x[max(0, m-20) : m+40]`. -/
def mismatchSnip (s : List Char) (m : ℕ) : List Char :=
  (s.drop (m - 20)).take (m + 40 - (m - 20))

/-- `_pos_to_tok_idx`; on the sorted `cum_end` list, `bisect_left` is the
count of elements strictly below the probe. -/
def posToTokIdx (cumEnd : List ℕ) (nTok : ℕ) (charPos : ℕ) : ℕ :=
  if charPos = 0 then 0
  else min nTok ((cumEnd.takeWhile (fun c => c < charPos)).length + 1)

/-- The final clamp loop of `align_script_parts_to_words` (`st = max(prev, st)`,
`en = max(st + 0.02, en)`). -/
def clampMonoPairs : ℚ → List (ℚ × ℚ) → List (ℚ × ℚ)
  | _, [] => []
  | prev, (s, e) :: rest =>
    let st := max prev s
    let en := max (st + 1/50) e
    (st, en) :: clampMonoPairs en rest

/-- The part normalization of `align_script_parts_to_words`:
`[str(x).strip() for x in (parts or []) if str(x).strip()]`. -/
def alignParts (parts0 : List (List Char)) : List (List Char) :=
  (parts0.map pyStrip).filter (fun p => !(p.isEmpty))

/-- The cleaned-word-stream loop of `align_script_parts_to_words`: the
enumerated words whose cleaned text is nonempty. -/
def alignKept (words : List WordItem) : List (ℕ × WordItem) :=
  words.enum.filter (fun p => !((cleanSpoken p.2.text).isEmpty))

/-- `word_tok`. -/
def alignWordTok (words : List WordItem) : List (List Char) :=
  (alignKept words).map (fun p => cleanSpoken p.2.text)

/-- `word_map`. -/
def alignWordMap (words : List WordItem) : List ℕ :=
  (alignKept words).map (fun p => p.1)

/-- `cum_end`: cumulative cleaned-token lengths. -/
def cumEndOf (wordTok : List (List Char)) : List ℕ :=
  ((wordTok.map List.length).scanl (fun a b => a + b) 0).drop 1

/-- `bounds_tok`: `[0]`, the token index of each interior part boundary, and
`len(word_tok)`. -/
def alignBoundsTok (partTok wordTok : List (List Char)) : List ℕ :=
  let accs := ((partTok.dropLast.map List.length).scanl (fun a b => a + b) 0).drop 1
  0 :: (accs.map (posToTokIdx (cumEndOf wordTok) wordTok.length) ++ [wordTok.length])

/-- `ranges`: token-boundary pairs converted to clamped word-index ranges. -/
def alignRanges (wordMap : List ℕ) (boundsTok : List ℕ) : List (ℕ × ℕ) :=
  (boundsTok.zip boundsTok.tail).map (fun ab =>
    let aT := min (wordMap.length - 1) ab.1
    let bT := max (aT + 1) (min wordMap.length ab.2)
    (wordMap.getD aT 0, wordMap.getD (bT - 1) 0 + 1))

/-- The time-range extraction, midpoint gap-closing, and `total_dur` forcing of
`align_script_parts_to_words`, before the final clamp loop. -/
def alignIntervalsRaw (words : List WordItem) (ranges : List (ℕ × ℕ))
    (totalDur : Option ℚ) : List (ℚ × ℚ) :=
  let starts0 := ranges.map (fun r => (words.getD r.1 default).start)
  let ends0 := ranges.map (fun r => (words.getD (r.2 - 1) default).stop)
  let n := starts0.length
  let mids := List.zipWith (fun e s => (1/2) * (e + s)) (ends0.take (n - 1)) (starts0.drop 1)
  let starts1 := starts0.headD 0 :: mids
  let ends1 := mids ++ [ends0.getLastD 0]
  let starts2 := match totalDur with
    | some _ => starts1.set 0 0
    | none => starts1
  let ends2 := match totalDur with
    | some d => ends1.set (n - 1) d
    | none => ends1
  starts2.zip ends2

/-- `align_script_parts_to_words` (the unused snapping/penalty keyword
parameters of the source are omitted; they do not occur in the body). -/
def align_script_parts_to_words (words : List WordItem) (parts0 : List (List Char))
    (totalDur : Option ℚ) : Except AlignError (List (ℚ × ℚ)) :=
  let parts := alignParts parts0
  if parts.isEmpty then .ok []
  else if words.isEmpty then .error .noWordBoundary
  else if (alignWordTok words).isEmpty then .error .emptyWordTokens
  else
    let partTok := parts.map cleanSpoken
    if partTok.any (fun t => t.isEmpty) then .error .punctOnlyPart
    else
      let wholeWords := (alignWordTok words).flatten
      let wholeScript := partTok.flatten
      if wholeScript ≠ wholeWords then
        let m := firstDiffIdx wholeScript wholeWords
        .error (.mismatch m (mismatchSnip wholeScript m) (mismatchSnip wholeWords m))
      else
        .ok (clampMonoPairs 0 (alignIntervalsRaw words
          (alignRanges (alignWordMap words)
            (alignBoundsTok partTok (alignWordTok words))) totalDur))

/-! ### `jobs/index_job.py` — shot segmentation (`_normalize_slices`) -/

/-- The `while (e - s) > max_sec + 1e-6` loop of `_split_one`, with explicit
fuel (every iteration advances `s` by at least `0.5`, so the fuel supplied by
`splitOneSlice` below is never exhausted). -/
def splitOneAux (minSec targetSec maxSec : ℚ) : ℕ → ℚ → ℚ → List (ℚ × ℚ)
  | 0, s, e => [(s, e)]
  | fuel + 1, s, e =>
    if maxSec + 1/1000000 < e - s then
      let nxt0 := s + targetSec
      let nxt1 := if e - nxt0 < minSec then e - minSec else nxt0
      let nxt := max (s + 1/2) (min nxt1 (e - 1/2))
      (s, nxt) :: splitOneAux minSec targetSec maxSec fuel nxt e
    else [(s, e)]

/-- `_split_one` of `_normalize_slices`. -/
def splitOneSlice (minSec targetSec maxSec : ℚ) (s e : ℚ) : List (ℚ × ℚ) :=
  splitOneAux minSec targetSec maxSec (2 * (pyCeil (e - s)).toNat + 2) s e

/-- The forward merge loop of `_normalize_slices` ("merge short neighbors"). -/
def mergeSlicesGo (minSec : ℚ) : (ℚ × ℚ) → List (ℚ × ℚ) → List (ℚ × ℚ)
  | cur, [] => [cur]
  | cur, (s, e) :: rest =>
    if cur.2 - cur.1 < minSec then mergeSlicesGo minSec (cur.1, e) rest
    else cur :: mergeSlicesGo minSec (s, e) rest

/-- The "if the last slice is still too short, merge it back" step. -/
def backMergeLast (minSec : ℚ) (l : List (ℚ × ℚ)) : List (ℚ × ℚ) :=
  if 2 ≤ l.length ∧ (l.getLastD (0, 0)).2 - (l.getLastD (0, 0)).1 < minSec then
    l.dropLast.dropLast ++ [((l.dropLast.getLastD (0, 0)).1, (l.getLastD (0, 0)).2)]
  else l

/-- The final cleanup loop of `_normalize_slices` ("drop ultra-short tails;
merge into previous"). -/
def cleanupGo (minSec maxSec targetSec : ℚ) : List (ℚ × ℚ) → List (ℚ × ℚ) → List (ℚ × ℚ)
  | acc, [] => acc
  | acc, (s, e) :: rest =>
    if !acc.isEmpty ∧ e - s < minSec then
      let p := acc.getLastD (0, 0)
      let acc1 := acc.dropLast
      if maxSec + 1/1000000 < e - p.1 then
        cleanupGo minSec maxSec targetSec (acc1 ++ splitOneSlice minSec targetSec maxSec p.1 e) rest
      else cleanupGo minSec maxSec targetSec (acc1 ++ [(p.1, e)]) rest
    else cleanupGo minSec maxSec targetSec (acc ++ [(s, e)]) rest

/-- `_normalize_slices`. -/
def normalize_slices (slices : List (ℚ × ℚ)) (minSec0 targetSec0 maxSec0 : ℚ) :
    List (ℚ × ℚ) :=
  let minSec := max (1/2) minSec0
  let maxSec := max minSec maxSec0
  let targetSec := max minSec (min targetSec0 maxSec)
  match slices with
  | [] => []
  | first :: rest =>
    let merged := backMergeLast minSec (mergeSlicesGo minSec first rest)
    let split := (merged.map (fun p => splitOneSlice minSec targetSec maxSec p.1 p.2)).flatten
    let cleaned := cleanupGo minSec maxSec targetSec [] split
    (cleaned.filter (fun p => 1/2 ≤ p.2 - p.1)).map (fun p => (pyRound3 p.1, pyRound3 p.2))

/-! ### `jobs/render_job.py` — script splitting -/

/-- The `split_chars` set of `_split_script`. -/
def SPLIT_CHARS : List Char := ['，', '。', '？', '！', ',', '.', '?', '!', '；', ';', '—', '–', '－', '-']

/-- The `dash_chars` set of `_split_script`. -/
def DASH_CHARS : List Char := ['—', '–', '－', '-']

/-- Membership in `split_chars`. -/
def isSplitChar (c : Char) : Bool := SPLIT_CHARS.contains c

/-- Membership in `dash_chars`. -/
def isDashChar (c : Char) : Bool := DASH_CHARS.contains c

/-- State of the `_split_script` character loop. -/
structure SplitScriptState where
  out : List (List Char)
  buf : List Char
  in_quote : Bool
deriving Repr, Inhabited

/-- `flush()` of `_split_script`. -/
def ssFlush (st : SplitScriptState) : SplitScriptState :=
  let s := pyStrip st.buf
  if s.isEmpty then { st with buf := [] }
  else { out := st.out ++ [s], buf := [], in_quote := st.in_quote }

/-- One character of the `_split_script` loop; `nxt` is the raw lookahead
character used by the double-dash rule. -/
def splitScriptStep (st : SplitScriptState) (ch : Char) (nxt : Option Char) : SplitScriptState :=
  if ch = '\r' then st
  else if ch = '\n' then ssFlush st
  else
    let inq :=
      if ch = '“' then true
      else if ch = '”' then false
      else if ch = '"' then !st.in_quote
      else st.in_quote
    let st1 : SplitScriptState := { out := st.out, buf := st.buf ++ [ch], in_quote := inq }
    if inq then st1
    else if isSplitChar ch then
      if isDashChar ch && (match nxt with | some c => isDashChar c | none => false) then st1
      else ssFlush st1
    else st1

/-- The `_split_script` character loop over the raw text. -/
def splitScriptGo (st : SplitScriptState) : List Char → SplitScriptState
  | [] => st
  | c :: rest => splitScriptGo (splitScriptStep st c rest.head?) rest

/-- The trailing-split-punctuation class of `_is_quoted_only`. -/
def TRAIL_SPLIT_PUNCT : List Char := ['，', ',', '。', '.', '？', '?', '!', '！', '；', ';', '—', '–', '－', '-']

/-- Removal of the trailing run of split punctuation (`re.sub(r"[…]+$", "", t)`). -/
def dropTrailingSplitPunct (t : List Char) : List Char :=
  (t.reverse.dropWhile (fun c => TRAIL_SPLIT_PUNCT.contains c)).reverse

/-- `_is_quoted_only`. -/
def is_quoted_only (s : List Char) : Bool :=
  let t := pyStrip s
  if t.isEmpty then false
  else
    let t2 := pyStrip (dropTrailingSplitPunct t)
    if t2.isEmpty then false
    else if t2.head? = some '“' ∧ t2.contains '”' then t2.getLast? = some '”'
    else if t2.head? = some '"' ∧ 2 ≤ t2.count '"' ∧ t2.getLast? = some '"' then true
    else false

/-- The quoted-fragment merge pass of `_split_script`. -/
def mergeQuotedOnly (l : List (List Char)) : List (List Char) :=
  l.foldl
    (fun acc s =>
      if !acc.isEmpty ∧ is_quoted_only s then acc.dropLast ++ [pyRStrip (acc.getLastD []) ++ s]
      else acc ++ [s])
    []

/-- `_split_script`. -/
def split_script (raw : List Char) : List (List Char) :=
  if (pyStrip raw).isEmpty then []
  else mergeQuotedOnly (ssFlush (splitScriptGo ⟨[], [], false⟩ raw)).out

/-! ### `jobs/render_job.py` — FPS-grid snapping -/

/-- The effective frame rate (`int(fps) if int(fps) > 0 else 25`, clamped to
`[10, 60]`). -/
def fpsEff (fps0 : ℤ) : ℤ := max 10 (min 60 (if 0 < fps0 then fps0 else 25))

/-- `total_frames = max(1, int((total_dur * fps) + 0.999999))`. -/
def totalFramesOf (fps0 : ℤ) (totalDur0 : ℚ) : ℤ :=
  max 1 (pyTrunc (max 0 totalDur0 * (fpsEff fps0 : ℚ) + 999999/1000000))

/-- The forward clamp loop of `_snap_line_times_to_fps`; `prev` starts at `0`
so the first minimum is `1`, and `t - rest.length` is
`total_frames - (n - i - 1)`. -/
def snapFwd (t : ℤ) : ℤ → List ℤ → List ℤ
  | _, [] => []
  | prev, e :: rest =>
    let v := max (prev + 1) (min e (t - (rest.length : ℤ)))
    v :: snapFwd t v rest

/-- The backward pass `end_frames[i] = min(end_frames[i], end_frames[i+1]-1)`
executed right-to-left. -/
def snapBwd : List ℤ → List ℤ
  | [] => []
  | [x] => [x]
  | x :: y :: rest =>
    let r := snapBwd (y :: rest)
    min x (r.headD x - 1) :: r

/-- The end-frame computation of `_snap_line_times_to_fps` (for a non-empty
input; the caller handles the empty case). -/
def snapEndFrames (lineTimes : List (ℚ × ℚ)) (fps0 : ℤ) (totalDur0 : ℚ) : List ℤ :=
  let fps := fpsEff fps0
  let d := max 0 totalDur0
  let t := totalFramesOf fps0 totalDur0
  let n := lineTimes.length
  let ends1 := (lineTimes.map (fun p => max 0 (min d p.2))).set (n - 1) d
  let ef1 := snapFwd t 0 (ends1.map (fun x => pyRound (x * (fps : ℚ))))
  let ef3 := snapBwd (ef1.set (n - 1) t)
  ef3.set 0 (max 1 (min (ef3.headD 0) (t - ((n - 1 : ℕ) : ℤ))))

/-- `_snap_line_times_to_fps`. -/
def snap_line_times_to_fps (lineTimes : List (ℚ × ℚ)) (fps0 : ℤ) (totalDur0 : ℚ) :
    List (ℚ × ℚ) × List ℤ :=
  if lineTimes.isEmpty then ([], [])
  else
    let fps := fpsEff fps0
    let ef := snapEndFrames lineTimes fps0 totalDur0
    let pairs := (0 :: ef.dropLast).zip ef
    (pairs.map (fun p => ((p.1 : ℚ) / (fps : ℚ), (p.2 : ℚ) / (fps : ℚ))),
     pairs.map (fun p => max 1 (p.2 - p.1)))

/-! ### `jobs/render_job.py` — timeline scheduler

The scheduler consumes the similarity matrix `sims = cosine_sim_matrix(unit_vecs,
clip_vecs)`; the embedding provider producing the vectors is an external
collaborator (spec §6), so `sims` is taken as an input here and the embedding
starts at the line after the `cosine_sim_matrix` call. -/

/-- A clip record of the persisted index. Fields that the Python dict may lack
are `Option` (`shot_start`/`shot_end`, defaulted by `c.get(…)`); the numeric
`c.get("start", 0.0)`/`c.get("shot_id", -1)` defaults are folded into
always-present fields. The `end` field is named `stop`. -/
structure Clip where
  clip_id : String
  source_path : String
  text : List Char
  flags : List (List Char)
  start : ℚ
  stop : ℚ
  shot_id : ℤ
  shot_start : Option ℚ
  shot_end : Option ℚ
deriving DecidableEq, Repr, Inhabited

/-- One entry of the `_build_shot_index` shot map. -/
structure ShotRec where
  source : String
  shot_id : ℤ
  start : ℚ
  stop : ℚ
  clip_idxs : List ℕ
deriving DecidableEq, Repr, Inhabited

/-- The shot-bounds extraction with clip-bounds fallback used by
`_build_shot_index` (`if se <= ss + 1e-6: use clip start/end`). -/
def shotBoundsOf (c : Clip) : ℚ × ℚ :=
  let ss := c.shot_start.getD c.start
  let se := c.shot_end.getD c.stop
  if se ≤ ss + 1/1000000 then (c.start, c.stop) else (ss, se)

/-- One clip of the `_build_shot_index` loop: first occurrence inserts, later
occurrences append the clip index and widen the bounds. -/
def updateShotMap (m : List ((String × ℤ) × ShotRec)) (key : String × ℤ) (idx : ℕ)
    (ss se : ℚ) : List ((String × ℤ) × ShotRec) :=
  match alookup m key with
  | none => m ++ [(key, ⟨key.1, key.2, ss, se, [idx]⟩)]
  | some r =>
    dictSet m key ⟨r.source, r.shot_id, min r.start ss, max r.stop se, r.clip_idxs ++ [idx]⟩

/-- `_build_shot_index` (its second return value, the per-source shot-id sets,
is bound to `_shot_ids_by_source` and never used by the scheduler, so it is
not modelled). -/
def build_shot_index (clips : List Clip) : List ((String × ℤ) × ShotRec) :=
  clips.enum.foldl
    (fun m p =>
      let c := p.2
      if c.source_path = "" ∨ c.shot_id < 0 then m
      else
        let b := shotBoundsOf c
        updateShotMap m (c.source_path, c.shot_id) p.1 b.1 b.2)
    []

/-- `_overlap_bonus`: count of nonempty hint phrases occurring as substrings
of the clip caption. -/
def overlapBonus (hints : List (List Char)) (clipText : List Char) : ℕ :=
  if hints.isEmpty ∨ clipText.isEmpty then 0
  else (hints.filter (fun h => !h.isEmpty && isSubstring h clipText)).length

/-- The `"subtitle_heavy"` flag literal. -/
def SUBTITLE_HEAVY : List Char := "subtitle_heavy".data

/-- Python `str(x).strip().lower()`. -/
def pyLowerStrip (s : List Char) : List Char := (pyStrip s).map Char.toLower

/-- `_clip_adj_score`: keyword-overlap bonus plus low-quality-flag penalty. -/
def clipAdjScore (keywordBoost shp : ℚ) (hints : List (List Char)) (score : ℚ)
    (c : Clip) : ℚ :=
  let adj := score + keywordBoost * (overlapBonus hints c.text : ℚ)
  if 1/1000000000 < shp ∧ c.flags.any (fun f => pyLowerStrip f = SUBTITLE_HEAVY) then
    adj - shp
  else adj

/-- The best-clip-per-shot fold (`shot_best[key] = (adj, ci, hit)` keeping the
maximum adjusted score, dict insertion order preserved). -/
def shotBestFor (keywordBoost shp : ℚ) (hints : List (List Char)) (scores : List ℚ)
    (clips : List Clip) : List ((String × ℤ) × (ℚ × ℕ × ℕ)) :=
  clips.enum.foldl
    (fun sb p =>
      let c := p.2
      if c.source_path = "" ∨ c.shot_id < 0 then sb
      else
        let key := (c.source_path, c.shot_id)
        let hit := if hints.isEmpty then 0 else overlapBonus hints c.text
        let adj := clipAdjScore keywordBoost shp hints (scores.getD p.1 0) c
        match alookup sb key with
        | none => sb ++ [(key, (adj, p.1, hit))]
        | some prev => if prev.1 < adj then dictSet sb key (adj, p.1, hit) else sb)
    []

/-- A candidate tuple `(hit, score, shot_len, src, sid, ci)`. -/
structure Cand where
  hit : ℕ
  score : ℚ
  shot_len : ℚ
  src : String
  sid : ℤ
  ci : ℕ
deriving DecidableEq, Repr, Inhabited

/-- Tier-1 candidates: shot long enough for the target and not used within the
cooldown window (measured in emitted output seconds). -/
def tierOneCands (shotMap : List ((String × ℤ) × ShotRec)) (used : List ((String × ℤ) × ℚ))
    (outT target dedupWindow : ℚ) (sb : List ((String × ℤ) × (ℚ × ℕ × ℕ))) : List Cand :=
  sb.foldl
    (fun acc kv =>
      match alookup shotMap kv.1 with
      | none => acc
      | some m =>
        let shotLen := max 0 (m.stop - m.start)
        if shotLen + 1/1000000 < target then acc
        else
          match alookup used kv.1 with
          | some last =>
            if outT - last < dedupWindow then acc
            else acc ++ [⟨kv.2.2.2, kv.2.1, shotLen, kv.1.1, kv.1.2, kv.2.2.1⟩]
          | none => acc ++ [⟨kv.2.2.2, kv.2.1, shotLen, kv.1.1, kv.1.2, kv.2.2.1⟩])
    []

/-- Tier-2 candidates (fallback A): same duration filter, cooldown ignored. -/
def tierTwoCands (shotMap : List ((String × ℤ) × ShotRec)) (target : ℚ)
    (sb : List ((String × ℤ) × (ℚ × ℕ × ℕ))) : List Cand :=
  sb.foldl
    (fun acc kv =>
      match alookup shotMap kv.1 with
      | none => acc
      | some m =>
        let shotLen := max 0 (m.stop - m.start)
        if shotLen + 1/1000000 < target then acc
        else acc ++ [⟨kv.2.2.2, kv.2.1, shotLen, kv.1.1, kv.1.2, kv.2.2.1⟩])
    []

/-- Descending comparison on the sort key `(hit, score, shot_len)`. -/
def candKeyGeq (a b : Cand) : Bool :=
  decide (b.hit < a.hit) ||
    (decide (b.hit = a.hit) &&
      (decide (b.score < a.score) ||
        (decide (b.score = a.score) && decide (b.shot_len ≤ a.shot_len))))

/-- A scheduled timeline segment; dict keys `in`/`out`/`end` are fields
`in_t`/`out_t`/`stop`. -/
structure Segment where
  unit_i : ℕ
  text : List Char
  source : String
  in_t : ℚ
  out_t : ℚ
  shot_id : ℤ
  shot_start : ℚ
  shot_end : ℚ
  hit : ℕ
  score : ℚ
  anchor_clip_id : String
  start : ℚ
  stop : ℚ
deriving DecidableEq, Repr, Inhabited

/-- Assembly of the `chosen` record. -/
def mkSegment (clips : List Clip) (ui : ℕ) (text : List Char) (stt ent target : ℚ)
    (c : Cand) (ss se inT : ℚ) : Segment :=
  ⟨ui, text, c.src, inT, inT + target, c.sid, ss, se, c.hit, c.score,
    (clips.getD c.ci default).clip_id, stt, ent⟩

/-- The `for … in cand[:240]` placement loop: in/out window centered on the
anchor clip midpoint, clamped into the shot, shifted forward when too close to
the previous same-source segment, skipping the candidate when the shift cannot
fit. -/
def tryCands (shotMap : List ((String × ℤ) × ShotRec)) (clips : List Clip)
    (minGap target : ℚ) (prevSrc : Option String) (prevOut : Option ℚ)
    (ui : ℕ) (text : List Char) (stt ent : ℚ) : List Cand → Option Segment
  | [] => none
  | c :: rest =>
    match alookup shotMap (c.src, c.sid) with
    | none => tryCands shotMap clips minGap target prevSrc prevOut ui text stt ent rest
    | some m =>
      let ss := m.start
      let se := m.stop
      if se - ss + 1/1000000 < target then
        tryCands shotMap clips minGap target prevSrc prevOut ui text stt ent rest
      else
        let clip := clips.getD c.ci default
        let mid := (clip.start + clip.stop) / 2
        let in0 := max ss (min (mid - target / 2) (se - target))
        match prevSrc, prevOut with
        | some ps, some pot =>
          if ps ≠ "" ∧ ps = c.src then
            let mg := max 0 minGap
            if in0 < pot + mg then
              let shifted := min (max in0 (pot + mg)) (se - target)
              if in0 + 1/1000 < shifted then
                some (mkSegment clips ui text stt ent target c ss se shifted)
              else tryCands shotMap clips minGap target prevSrc prevOut ui text stt ent rest
            else some (mkSegment clips ui text stt ent target c ss se in0)
          else some (mkSegment clips ui text stt ent target c ss se in0)
        | _, _ => some (mkSegment clips ui text stt ent target c ss se in0)

/-- Structured form of the ways `_pick_visual_segments_edgetts` fails.
`tierThreeUnpack` is the `ValueError` raised by the tier-3 fallback: the line
`for (src, sid), (_sc, ci) in shot_best.items():` unpacks the 3-tuple values
`(adj, ci, hit)` of `shot_best` into a 2-pattern, so the "clamp to the longest
shot" branch never completes. -/
inductive PickError where
  | unitTimesMismatch
  | emptyShotIndex
  | noUsableShots
  | tierThreeUnpack
deriving DecidableEq, Repr

/-- The scheduler state carried across narration units. -/
structure PickState where
  used : List ((String × ℤ) × ℚ)
  out_t : ℚ
  prev_src : Option String
  prev_out_src_t : Option ℚ
deriving Repr, Inhabited

/-- The per-unit target duration `max(0.05, ent - stt)`. -/
def pickTarget (stt ent : ℚ) : ℚ := max (1/20) (ent - stt)

/-- The per-unit score row (uniform zeros when the similarity matrix is
degenerate). -/
def pickScores (sims : List (List ℚ)) (clips : List Clip) (ui : ℕ) : List ℚ :=
  if sims.flatten.isEmpty then List.replicate clips.length (0 : ℚ)
  else sims.getD ui []

/-- The hint-hit narrowing of the candidate list (`cand2`). -/
def pickCand2 (cand : List Cand) : List Cand :=
  if cand.any (fun x => 0 < x.hit) then
    let f := cand.filter (fun x => 0 < x.hit)
    if f.isEmpty then cand else f
  else cand

/-- The last-resort placement when every candidate of the 240-prefix was
skipped: the head candidate is used at its clamped midpoint window. -/
def pickFallback (shotMap : List ((String × ℤ) × ShotRec)) (clips : List Clip)
    (target : ℚ) (ui : ℕ) (text : List Char) (stt ent : ℚ)
    (sortedCand : List Cand) : Segment :=
  let c := sortedCand.headD default
  let m := (alookup shotMap (c.src, c.sid)).getD default
  let clip := clips.getD c.ci default
  let mid := (clip.start + clip.stop) / 2
  let in0 := max m.start (min (mid - target / 2) (m.stop - target))
  mkSegment clips ui text stt ent target c m.start m.stop in0

/-- One narration unit of the scheduler loop; returns the chosen segment, the
tier that produced the candidate set (1 or 2), and the updated state. -/
def pickUnitStep (shotMap : List ((String × ℤ) × ShotRec)) (clips : List Clip)
    (sims : List (List ℚ)) (dedupWindow keywordBoost shp minGap : ℚ) (st : PickState)
    (ui : ℕ) (text : List Char) (hints : List (List Char)) (stt ent : ℚ) :
    Except PickError (Segment × ℕ × PickState) :=
  let target := pickTarget stt ent
  let sb := shotBestFor keywordBoost shp hints (pickScores sims clips ui) clips
  let cand1 := tierOneCands shotMap st.used st.out_t target dedupWindow sb
  let cand := if cand1.isEmpty then tierTwoCands shotMap target sb else cand1
  let tier := if cand1.isEmpty then 2 else 1
  if cand.isEmpty then
    if sb.isEmpty then .error .noUsableShots else .error .tierThreeUnpack
  else
    let sortedCand := stableSortDesc candKeyGeq (pickCand2 cand)
    let chosen :=
      match tryCands shotMap clips minGap target st.prev_src st.prev_out_src_t ui text
          stt ent (sortedCand.take 240) with
      | some seg => seg
      | none => pickFallback shotMap clips target ui text stt ent sortedCand
    .ok (chosen,
      tier,
      { used := dictSet st.used (chosen.source, chosen.shot_id) st.out_t,
        out_t := st.out_t + target,
        prev_src := some chosen.source,
        prev_out_src_t := some chosen.out_t })

/-- The scheduler loop over all narration units. -/
def pickGo (shotMap : List ((String × ℤ) × ShotRec)) (clips : List Clip)
    (sims : List (List ℚ)) (dedupWindow keywordBoost shp minGap : ℚ) :
    PickState → List (ℕ × List Char × List (List Char) × ℚ × ℚ) →
    Except PickError (List (Segment × ℕ))
  | _, [] => .ok []
  | st, (ui, text, hints, stt, ent) :: rest =>
    match pickUnitStep shotMap clips sims dedupWindow keywordBoost shp minGap st ui
        text hints stt ent with
    | .error e => .error e
    | .ok (seg, tier, st1) =>
      match pickGo shotMap clips sims dedupWindow keywordBoost shp minGap st1 rest with
      | .error e => .error e
      | .ok l => .ok ((seg, tier) :: l)

/-- `_pick_visual_segments_edgetts` instrumented with the tier used per unit
(1 = cooldown-respecting, 2 = cooldown-ignored; the tier-3 path errors).
`unit_queries` is consumed only by the external embedding provider and is
absorbed into `sims`. -/
def pick_visual_segments_edgetts_trace (unitTexts : List (List Char))
    (unitHints0 : List (List (List Char))) (unitTimes : List (ℚ × ℚ))
    (clips : List Clip) (sims : List (List ℚ))
    (dedupWindow keywordBoost shp minGap : ℚ) :
    Except PickError (List (Segment × ℕ)) :=
  if unitTexts.isEmpty then .ok []
  else
    let unitHints :=
      if unitHints0.isEmpty ∨ unitHints0.length ≠ unitTexts.length then
        List.replicate unitTexts.length []
      else unitHints0
    if unitTimes.isEmpty ∨ unitTimes.length ≠ unitTexts.length then
      .error .unitTimesMismatch
    else
      let shotMap := build_shot_index clips
      if shotMap.isEmpty then .error .emptyShotIndex
      else
        pickGo shotMap clips sims dedupWindow keywordBoost shp minGap ⟨[], 0, none, none⟩
          ((unitTexts.zip (unitHints.zip unitTimes)).enum.map
            (fun p => (p.1, p.2.1, p.2.2.1, p.2.2.2.1, p.2.2.2.2)))

/-- `_pick_visual_segments_edgetts`: the returned segment list. -/
def pick_visual_segments_edgetts (unitTexts : List (List Char))
    (unitHints0 : List (List (List Char))) (unitTimes : List (ℚ × ℚ))
    (clips : List Clip) (sims : List (List ℚ))
    (dedupWindow keywordBoost shp minGap : ℚ) : Except PickError (List Segment) :=
  (pick_visual_segments_edgetts_trace unitTexts unitHints0 unitTimes clips sims
      dedupWindow keywordBoost shp minGap).map (fun l => l.map Prod.fst)

/-- The cleaned spoken-character concatenation of a list of script units (the
script side of the consistency check of `align_script_parts_to_words`). -/
def cleanJoin (xs : List (List Char)) : List Char :=
  (xs.map cleanSpoken).flatten

/-- The cleaned spoken-character concatenation of a word-token list (the JSON
side of the consistency check of `align_script_parts_to_words`). -/
def cleanWordsJoin (words : List WordItem) : List Char :=
  (words.map (fun w => cleanSpoken w.text)).flatten

/-- The raw per-part start times of `align_script_parts_to_words`
(`starts = [words[a].start for a, b in ranges]`). -/
def rawStarts (words : List WordItem) (ranges : List (ℕ × ℕ)) : List ℚ :=
  ranges.map (fun r => (words.getD r.1 default).start)

/-- The raw per-part end times (`ends = [words[b-1].end for a, b in ranges]`). -/
def rawEnds (words : List WordItem) (ranges : List (ℕ × ℕ)) : List ℚ :=
  ranges.map (fun r => (words.getD (r.2 - 1) default).stop)

/-- The midpoint boundaries that close the gaps between consecutive parts
(`mid = (ends[i] + starts[i+1]) / 2`). -/
def rawMids (words : List WordItem) (ranges : List (ℕ × ℕ)) : List ℚ :=
  List.zipWith (fun e s => (1/2) * (e + s))
    ((rawEnds words ranges).take ((rawStarts words ranges).length - 1))
    ((rawStarts words ranges).drop 1)

/-- The unit invariant: nonempty and stripped. -/
def UnitInv (u : List Char) : Prop := u ≠ [] ∧ pyStrip u = u

/-- The per-segment window invariant of the scheduler: `out - in` is exactly
the unit's target duration `max(0.05, end - start)`, and the window sits
inside the recorded shot bounds up to the candidate filter's `1e-6` slack. -/
def SegOK (seg : Segment) : Prop :=
  seg.out_t - seg.in_t = max (1/20) (seg.stop - seg.start) ∧
    seg.shot_start ≤ seg.in_t ∧ seg.in_t < seg.out_t ∧
    seg.out_t ≤ seg.shot_end + 1/1000000

/-- What tier-1/2 candidate construction guarantees about the shot length. -/
def CandLen (shotMap : List ((String × ℤ) × ShotRec)) (target : ℚ) (c : Cand) : Prop :=
  ∃ m, alookup shotMap (c.src, c.sid) = some m ∧
    target ≤ max 0 (m.stop - m.start) + 1/1000000

/-- What tier-1 candidate construction guarantees about the cooldown. -/
def CandCool (used : List ((String × ℤ) × ℚ)) (outT dedupWindow : ℚ) (c : Cand) : Prop :=
  ∀ u, alookup used (c.src, c.sid) = some u → u + dedupWindow ≤ outT

/-- The shot identity `(source_path, shot_id)` of a traced selection. -/
def segKey (x : Segment × ℕ) : String × ℤ := (x.1.source, x.1.shot_id)

/-- Cumulative emitted output seconds before the `k`-th selection. -/
def prefixDur (l : List (Segment × ℕ)) (k : ℕ) : ℚ :=
  ((l.take k).map (fun x => x.1.out_t - x.1.in_t)).sum

/-! ## Theorems -/

/-! ### Claim C6 — `splitOneLine("一二三，四五六。七八九", maxChars=4)` -/

/-- Claim C6, as stated, is false: on `"一二三，四五六。七八九"` with
`maxChars = 4` the function does not return `["一二三，", "四五六。", "七八九"]`.
The punctuation-preferred cut is rejected because the visible length up to the
last punctuation mark (3) is below `max(4, maxChars // 2) = 4`, so the
splitter hard-cuts at character boundaries instead. -/
theorem split_one_line_spec_scenario_false :
    split_one_line "一二三，四五六。七八九".data 4 ≠
      ["一二三，".data, "四五六。".data, "七八九".data] := by
  decide

/-- Claim C6 (amended): `splitOneLine("一二三，四五六。七八九", maxChars=4)`
returns exactly the three chunks `["一二三，四", "五六。七八", "九"]` — the
punctuation cut is rejected because its chunk's visible length 3 is below
`max(4, maxChars // 2) = 4`, so the splitter hard-cuts — and every returned
chunk has visible length at most 4. -/
theorem split_one_line_spec_scenario :
    split_one_line "一二三，四五六。七八九".data 4 =
        ["一二三，四".data, "五六。七八".data, "九".data] ∧
      ∀ chunk ∈ split_one_line "一二三，四五六。七八九".data 4,
        visible_len_zh chunk ≤ 4 := by
  decide

/-! ### Claim C8 — determinism of the core pipeline -/

/-- Claim C8: the alignment, FPS-snapping and timeline-scheduling functions
are deterministic — two runs on componentwise-equal inputs produce equal
outputs. In this embedding all three are pure functions of their inputs
(no ambient state, randomness or I/O was needed to model them), so equal
inputs give equal outputs definitionally. -/
theorem core_pipeline_deterministic
    (w1 w2 : List WordItem) (p1 p2 : List (List Char)) (d1 d2 : Option ℚ)
    (lt1 lt2 : List (ℚ × ℚ)) (f1 f2 : ℤ) (td1 td2 : ℚ)
    (ut1 ut2 : List (List Char)) (uh1 uh2 : List (List (List Char)))
    (tm1 tm2 : List (ℚ × ℚ)) (c1 c2 : List Clip) (s1 s2 : List (List ℚ))
    (dw1 dw2 kb1 kb2 sp1 sp2 mg1 mg2 : ℚ)
    (hw : w1 = w2) (hp : p1 = p2) (hd : d1 = d2)
    (hlt : lt1 = lt2) (hf : f1 = f2) (htd : td1 = td2)
    (hut : ut1 = ut2) (huh : uh1 = uh2) (htm : tm1 = tm2)
    (hc : c1 = c2) (hs : s1 = s2) (hdw : dw1 = dw2) (hkb : kb1 = kb2)
    (hsp : sp1 = sp2) (hmg : mg1 = mg2) :
    align_script_parts_to_words w1 p1 d1 = align_script_parts_to_words w2 p2 d2 ∧
      snap_line_times_to_fps lt1 f1 td1 = snap_line_times_to_fps lt2 f2 td2 ∧
      pick_visual_segments_edgetts ut1 uh1 tm1 c1 s1 dw1 kb1 sp1 mg1 =
        pick_visual_segments_edgetts ut2 uh2 tm2 c2 s2 dw2 kb2 sp2 mg2 := by
  subst hw hp hd hlt hf htd hut huh htm hc hs hdw hkb hsp hmg
  exact ⟨rfl, rfl, rfl⟩

/-- Witness for C8 at concrete inputs. -/
theorem core_pipeline_deterministic_witness :
    align_script_parts_to_words [⟨"你好".data, 0, 1⟩] ["你好".data] (some 1) =
        align_script_parts_to_words [⟨"你好".data, 0, 1⟩] ["你好".data] (some 1) ∧
      snap_line_times_to_fps [(0, 1)] 25 1 = snap_line_times_to_fps [(0, 1)] 25 1 ∧
      pick_visual_segments_edgetts [['a']] [] [(0, 1)] [] [[1]] 60 0 0 (4/5) =
        pick_visual_segments_edgetts [['a']] [] [(0, 1)] [] [[1]] 60 0 0 (4/5) := by
  apply core_pipeline_deterministic <;> rfl

/-! ### Claim C9 — clamp-loop invariants of the alignment outputs -/

theorem clampMonoPairs_dur (prev : ℚ) (l : List (ℚ × ℚ)) :
    ∀ p ∈ clampMonoPairs prev l, p.1 + 1/50 ≤ p.2 := by
  induction l generalizing prev with
  | nil => simp [clampMonoPairs]
  | cons hd tl ih =>
    obtain ⟨s, e⟩ := hd
    intro p hp
    simp only [clampMonoPairs, List.mem_cons] at hp
    rcases hp with h | h
    · subst h; exact le_max_left _ _
    · exact ih _ p h

theorem clampMonoPairs_head_ge (prev : ℚ) (l : List (ℚ × ℚ)) :
    ∀ p ∈ (clampMonoPairs prev l).head?, prev ≤ p.1 := by
  cases l with
  | nil => simp [clampMonoPairs]
  | cons hd tl =>
    obtain ⟨s, e⟩ := hd
    intro p hp
    simp only [clampMonoPairs, List.head?_cons, Option.mem_def, Option.some.injEq] at hp
    subst hp
    exact le_max_left _ _

theorem clampMonoPairs_chain (prev : ℚ) (l : List (ℚ × ℚ)) :
    List.Chain' (fun a b : ℚ × ℚ => a.2 ≤ b.1) (clampMonoPairs prev l) := by
  induction l generalizing prev with
  | nil => simp [clampMonoPairs]
  | cons hd tl ih =>
    obtain ⟨s, e⟩ := hd
    simp only [clampMonoPairs]
    refine List.chain'_cons'.2 ⟨?_, ih _⟩
    intro q hq
    exact clampMonoPairs_head_ge _ tl q hq

theorem fixUnitsMono_dur (prev : ℚ) (l : List BUnit) :
    ∀ u ∈ fixUnitsMono prev l, u.start + 1/50 ≤ u.stop := by
  induction l generalizing prev with
  | nil => simp [fixUnitsMono]
  | cons hd tl ih =>
    intro u hu
    simp only [fixUnitsMono, List.mem_cons] at hu
    rcases hu with h | h
    · subst h; exact le_max_left _ _
    · exact ih _ u h

theorem fixUnitsMono_head_ge (prev : ℚ) (l : List BUnit) :
    ∀ u ∈ (fixUnitsMono prev l).head?, prev ≤ u.start := by
  cases l with
  | nil => simp [fixUnitsMono]
  | cons hd tl =>
    intro u hu
    simp only [fixUnitsMono, List.head?_cons, Option.mem_def, Option.some.injEq] at hu
    subst hu
    exact le_max_left _ _

theorem fixUnitsMono_chain (prev : ℚ) (l : List BUnit) :
    List.Chain' (fun a b : BUnit => a.stop ≤ b.start) (fixUnitsMono prev l) := by
  induction l generalizing prev with
  | nil => simp [fixUnitsMono]
  | cons hd tl ih =>
    simp only [fixUnitsMono]
    refine List.chain'_cons'.2 ⟨?_, ih _⟩
    intro q hq
    exact fixUnitsMono_head_ge _ tl q hq

/-- Every successful alignment result is an output of the final clamp loop. -/
theorem align_ok_is_clamped (words : List WordItem) (parts : List (List Char))
    (td : Option ℚ) (l : List (ℚ × ℚ))
    (h : align_script_parts_to_words words parts td = .ok l) :
    ∃ pl, l = clampMonoPairs 0 pl := by
  simp only [align_script_parts_to_words] at h
  split at h
  · exact ⟨[], by cases h; rfl⟩
  · split at h
    · simp at h
    · split at h
      · simp at h
      · split at h
        · simp at h
        · split at h
          · simp at h
          · exact ⟨_, by cases h; rfl⟩

/-- Every `build_units_from_meta` result is an output of the final clamp loop. -/
theorem build_units_is_clamped (words : List WordItem) (sents : List SentenceItem)
    (mc : ℤ) : ∃ us, build_units_from_meta words sents mc = fixUnitsMono 0 us := by
  simp only [build_units_from_meta]
  split
  · exact ⟨[], rfl⟩
  · exact ⟨_, rfl⟩

/-- Claim C9: every interval returned by `align_script_parts_to_words` and
every unit built by `build_units_from_meta` has duration at least 0.02 s, and
the returned sequence is non-overlapping in order (each start is at least the
previous end) — unconditionally, for all inputs. -/
theorem alignment_outputs_min_duration_and_ordered :
    (∀ (words : List WordItem) (parts : List (List Char)) (td : Option ℚ)
        (l : List (ℚ × ℚ)), align_script_parts_to_words words parts td = .ok l →
        (∀ p ∈ l, p.1 + 1/50 ≤ p.2) ∧ List.Chain' (fun a b : ℚ × ℚ => a.2 ≤ b.1) l) ∧
      ∀ (words : List WordItem) (sents : List SentenceItem) (mc : ℤ),
        (∀ u ∈ build_units_from_meta words sents mc, u.start + 1/50 ≤ u.stop) ∧
          List.Chain' (fun a b : BUnit => a.stop ≤ b.start)
            (build_units_from_meta words sents mc) := by
  constructor
  · intro words parts td l h
    obtain ⟨pl, rfl⟩ := align_ok_is_clamped words parts td l h
    exact ⟨clampMonoPairs_dur 0 pl, clampMonoPairs_chain 0 pl⟩
  · intro words sents mc
    obtain ⟨us, h⟩ := build_units_is_clamped words sents mc
    rw [h]
    exact ⟨fixUnitsMono_dur 0 us, fixUnitsMono_chain 0 us⟩

/-- Witness for C9: its alignment conjunct applied at a concrete input whose
alignment succeeds (`align_script_parts_to_words [⟨"你好", 0, 1⟩] ["你好"] none`),
with the resulting interval list named explicitly. -/
theorem alignment_outputs_min_duration_and_ordered_witness :
    align_script_parts_to_words [⟨"你好".data, 0, 1⟩] ["你好".data] none = .ok [(0, 1)] ∧
      ((∀ p ∈ [((0 : ℚ), (1 : ℚ))], p.1 + 1/50 ≤ p.2) ∧
        List.Chain' (fun a b : ℚ × ℚ => a.2 ≤ b.1) [((0 : ℚ), (1 : ℚ))]) := by
  have h : align_script_parts_to_words [⟨"你好".data, 0, 1⟩] ["你好".data] none =
      .ok [(0, 1)] := by
    have h1 : alignParts ["你好".data] = ["你好".data] := by decide
    have h2 : alignWordTok [⟨"你好".data, 0, 1⟩] = ["你好".data] := by
      simp [alignWordTok, alignKept, List.enum, List.enumFrom, cleanSpoken,
        isSpokenChar, isPySpace]
    have h3 : alignWordMap [⟨"你好".data, 0, 1⟩] = [0] := by
      simp [alignWordMap, alignKept, List.enum, List.enumFrom, cleanSpoken,
        isSpokenChar, isPySpace]
    have h4 : alignIntervalsRaw [⟨"你好".data, 0, 1⟩] [(0, 1)] none = [(0, 1)] := by
      simp [alignIntervalsRaw]
    simp only [align_script_parts_to_words, h1, h2, h3]
    norm_num +decide [cleanSpoken, isSpokenChar, isPySpace, alignBoundsTok, cumEndOf,
      posToTokIdx, alignRanges, h4, clampMonoPairs]
  exact ⟨h,
    (alignment_outputs_min_duration_and_ordered.1 [⟨"你好".data, 0, 1⟩] ["你好".data]
      none [(0, 1)] h)⟩

/-! ### Claim C7 — FPS-grid snapping -/

theorem pyFloor_eq_floor (x : ℚ) : pyFloor x = ⌊x⌋ := rfl

theorem pyCeil_eq_ceil (x : ℚ) : pyCeil x = ⌈x⌉ := by
  rw [pyCeil, pyFloor_eq_floor, Int.floor_neg, neg_neg]

theorem pyTrunc_eq_floor_of_nonneg (x : ℚ) (h : 0 ≤ x) : pyTrunc x = ⌊x⌋ := by
  rw [pyTrunc, if_pos h, pyFloor_eq_floor]

theorem totalFramesOf_pos (fps0 : ℤ) (d : ℚ) : 1 ≤ totalFramesOf fps0 d :=
  le_max_left _ _

theorem snapFwd_length (t : ℤ) (prev : ℤ) (l : List ℤ) :
    (snapFwd t prev l).length = l.length := by
  induction l generalizing prev with
  | nil => rfl
  | cons e rest ih => simp [snapFwd, ih]

/-- The forward clamp pass: when the previous boundary leaves room for one
frame per remaining unit, the output is strictly increasing, exceeds the
previous boundary, and each entry leaves room for the units after it. -/
theorem snapFwd_props (t : ℤ) (l : List ℤ) : ∀ prev : ℤ, prev ≤ t - (l.length : ℤ) →
    List.Chain' (· < ·) (snapFwd t prev l) ∧
      (∀ x ∈ (snapFwd t prev l).head?, prev < x) ∧
      (∀ i, i < l.length →
        (snapFwd t prev l).getD i 0 ≤ t - ((l.length - 1 - i : ℕ) : ℤ)) := by
  induction l with
  | nil =>
    intro prev _
    refine ⟨by simp [snapFwd], by simp [snapFwd], ?_⟩
    intro i h
    simp at h
  | cons e rest ih =>
    intro prev hprev
    have hlen : ((e :: rest).length : ℤ) = (rest.length : ℤ) + 1 := by
      simp [List.length_cons]
    rw [hlen] at hprev
    have hv1 : prev + 1 ≤ t - (rest.length : ℤ) := by omega
    have hvle : max (prev + 1) (min e (t - (rest.length : ℤ))) ≤ t - (rest.length : ℤ) :=
      max_le hv1 (min_le_right _ _)
    obtain ⟨ihchain, ihhead, ihbound⟩ := ih _ hvle
    have hunf : snapFwd t prev (e :: rest) =
        max (prev + 1) (min e (t - (rest.length : ℤ))) ::
          snapFwd t (max (prev + 1) (min e (t - (rest.length : ℤ)))) rest := rfl
    rw [hunf]
    refine ⟨?_, ?_, ?_⟩
    · refine List.chain'_cons'.2 ⟨?_, ihchain⟩
      intro y hy
      exact ihhead y hy
    · intro x hx
      simp only [List.head?_cons, Option.mem_def, Option.some.injEq] at hx
      subst hx
      have h1 : prev < prev + 1 := by omega
      exact lt_of_lt_of_le h1 (le_max_left _ _)
    · intro i h
      match i with
      | 0 =>
        have heq0 : ((e :: rest).length - 1 - 0 : ℕ) = rest.length := by simp
        rw [heq0, List.getD_cons_zero]
        exact hvle
      | Nat.succ j =>
        have hj : j < rest.length := by
          simpa [List.length_cons] using h
        have heq : ((e :: rest).length - 1 - (j + 1) : ℕ) = (rest.length - 1 - j : ℕ) := by
          simp only [List.length_cons]
          omega
        rw [heq, List.getD_cons_succ]
        exact ihbound j hj

/-- The backward pass is the identity on a strictly increasing list. -/
theorem snapBwd_eq_self : ∀ l : List ℤ, List.Chain' (· < ·) l → snapBwd l = l
  | [], _ => rfl
  | [x], _ => rfl
  | x :: y :: rest, h => by
    have h1 : x < y := (List.chain'_cons.1 h).1
    have h2 : List.Chain' (· < ·) (y :: rest) := (List.chain'_cons.1 h).2
    have ih := snapBwd_eq_self (y :: rest) h2
    simp only [snapBwd, ih, List.headD_cons]
    rw [min_eq_left (by omega)]

theorem snapBwd_length (l : List ℤ) : (snapBwd l).length = l.length := by
  match l with
  | [] => rfl
  | [x] => rfl
  | x :: y :: rest =>
    simp only [snapBwd, List.length_cons]
    rw [show (snapBwd (y :: rest)).length = (y :: rest).length from snapBwd_length (y :: rest)]
    simp

/-- `⌊q + 0.999999⌋` equals `⌈q⌉` exactly when the fractional part of `q` is
zero or at least `1e-6`. -/
theorem floor_add_punt_eq_ceil (q : ℚ)
    (h : Int.fract q = 0 ∨ 1/1000000 ≤ Int.fract q) :
    ⌊q + 999999/1000000⌋ = ⌈q⌉ := by
  have hfl := Int.floor_le q
  have hlt := Int.lt_floor_add_one q
  have hfr : Int.fract q = q - ⌊q⌋ := rfl
  rcases h with h0 | h1
  · obtain ⟨k, hk⟩ : ∃ k : ℤ, q = (k : ℚ) := ⟨⌊q⌋, by rw [hfr] at h0; linarith⟩
    subst hk
    rw [add_comm, Int.floor_add_int, Int.ceil_intCast]
    norm_num
  · rw [hfr] at h1
    have h2 : ⌊q + 999999/1000000⌋ = ⌊q⌋ + 1 := by
      rw [Int.floor_eq_iff]
      constructor
      · push_cast
        linarith
      · push_cast
        linarith
    have h3 : ⌈q⌉ = ⌊q⌋ + 1 := by
      rw [Int.ceil_eq_iff]
      constructor
      · push_cast
        linarith
      · push_cast
        linarith
    rw [h2, h3]

/-- When `fract(totalDur · fps)` is zero or at least `1e-6`, the
`+0.999999`-and-truncate total-frame count is the ceiling, clamped to be at
least 1. -/
theorem totalFramesOf_eq_ceil (fps0 : ℤ) (totalDur0 : ℚ)
    (h : Int.fract (max 0 totalDur0 * (fpsEff fps0 : ℚ)) = 0 ∨
      1/1000000 ≤ Int.fract (max 0 totalDur0 * (fpsEff fps0 : ℚ))) :
    totalFramesOf fps0 totalDur0 = max 1 ⌈max 0 totalDur0 * (fpsEff fps0 : ℚ)⌉ := by
  have hx0 : (0 : ℚ) ≤ max 0 totalDur0 * (fpsEff fps0 : ℚ) := by
    apply mul_nonneg (le_max_left _ _)
    have h10 : (10 : ℤ) ≤ fpsEff fps0 := le_max_left _ _
    exact_mod_cast le_trans (by norm_num) h10
  have hy0 : (0 : ℚ) ≤ max 0 totalDur0 * (fpsEff fps0 : ℚ) + 999999/1000000 := by linarith
  rw [totalFramesOf, pyTrunc_eq_floor_of_nonneg _ hy0, floor_add_punt_eq_ceil _ h]

/-- A nonempty list with its last element replaced is its `dropLast` with the
new element appended. -/
theorem set_last_eq_dropLast_concat {α : Type} (x : α) :
    ∀ l : List α, l ≠ [] → l.set (l.length - 1) x = l.dropLast ++ [x]
  | [], h => absurd rfl h
  | [_], _ => rfl
  | a :: b :: rest, _ => by
    have ih := set_last_eq_dropLast_concat x (b :: rest) (by simp)
    simp only [List.length_cons] at ih ⊢
    rw [show (rest.length + 1 + 1 - 1 : ℕ) = (rest.length + 1 - 1) + 1 by omega,
      List.set_cons_succ, ih]
    rfl

/-- Properties of the pipeline after the forward pass: forcing the last
boundary to `t`, the right-to-left pass, and the first-boundary fix leave a
strictly increasing list whose head is at least 1 and whose last entry is `t`
(whenever `n = |ef0|` units fit into `t` frames); in that regime the backward
pass and the first-boundary fix are in fact the identity. -/
theorem snapComposite_props (t : ℤ) (n : ℕ) (ef0 : List ℤ) (hn : ef0.length = n)
    (hne : ef0 ≠ []) (ht1 : 1 ≤ t) (hfit : (n : ℤ) ≤ t) :
    (snapBwd ((snapFwd t 0 ef0).set (n - 1) t)).set 0
        (max 1 (min ((snapBwd ((snapFwd t 0 ef0).set (n - 1) t)).headD 0)
          (t - ((n - 1 : ℕ) : ℤ)))) = (snapFwd t 0 ef0).set (n - 1) t ∧
      ((snapFwd t 0 ef0).set (n - 1) t).length = n ∧
      List.Chain' (· < ·) ((snapFwd t 0 ef0).set (n - 1) t) ∧
      (∀ x ∈ ((snapFwd t 0 ef0).set (n - 1) t).head?, 1 ≤ x) ∧
      ((snapFwd t 0 ef0).set (n - 1) t).getLast? = some t := by
  have hn1 : 1 ≤ n := by
    rw [← hn]
    exact List.length_pos.2 hne
  set F := snapFwd t 0 ef0 with hF
  have hFlen : F.length = n := by rw [hF, snapFwd_length, hn]
  have hFne : F ≠ [] := List.ne_nil_of_length_pos (by omega)
  have h0t : (0 : ℤ) ≤ t - (ef0.length : ℤ) := by rw [hn]; omega
  obtain ⟨hchainF, hheadF, hboundF⟩ := snapFwd_props t ef0 0 h0t
  rw [← hF] at hchainF hheadF hboundF
  have hFb : ∀ i, i < n → F.getD i 0 ≤ t - ((n - 1 - i : ℕ) : ℤ) := by
    intro i h
    have hb := hboundF i (by rw [hn]; exact h)
    rw [hn] at hb
    exact hb
  have hset : F.set (n - 1) t = F.dropLast ++ [t] := by
    rw [← hFlen]
    exact set_last_eq_dropLast_concat t F hFne
  -- head and last of `F` at the `getD` level
  have hhead?F : F.head? = some (F.getD 0 0) := by
    rw [List.head?_eq_getElem?, List.getElem?_eq_getElem (by omega),
      List.getD_eq_getElem F 0 (by omega)]
  have hlast?F : F.getLast? = some (F.getD (n - 1) 0) := by
    rw [List.getLast?_eq_getElem?, hFlen, List.getElem?_eq_getElem (by omega),
      List.getD_eq_getElem F 0 (by omega)]
  have hlast_le : F.getD (n - 1) 0 ≤ t := by
    have h1 := hFb (n - 1) (by omega)
    have h2 : ((n - 1 - (n - 1) : ℕ) : ℤ) = 0 := by norm_num
    rw [h2, sub_zero] at h1
    exact h1
  have hhead_ge : 1 ≤ F.getD 0 0 := by
    have := hheadF (F.getD 0 0) (by rw [hhead?F]; rfl)
    omega
  have hhead_le : F.getD 0 0 ≤ t - ((n - 1 : ℕ) : ℤ) := by
    have h1 := hFb 0 (by omega)
    simpa using h1
  -- chain of `F` decomposed around its last element
  have hFdec : F.dropLast ++ [F.getLast hFne] = F := List.dropLast_append_getLast hFne
  have hdec := List.chain'_append.1 (by rw [hFdec]; exact hchainF)
  have hDLlast : ∀ x ∈ F.dropLast.getLast?, x < t := by
    intro x hx
    have h1 : x < F.getLast hFne := hdec.2.2 x hx _ rfl
    have h2 : F.getLast? = some (F.getLast hFne) := List.getLast?_eq_getLast F hFne
    rw [hlast?F] at h2
    have h3 : F.getLast hFne = F.getD (n - 1) 0 := by
      injection h2.symm
    omega
  set ef2 := F.dropLast ++ [t] with hef2
  have hef2len : ef2.length = n := by
    rw [hef2]
    simp [List.length_dropLast]
    omega
  have hchain2 : List.Chain' (· < ·) ef2 := by
    rw [hef2]
    refine List.chain'_append.2 ⟨hdec.1, List.chain'_singleton t, ?_⟩
    intro x hx y hy
    simp only [List.head?_cons, Option.mem_def, Option.some.injEq] at hy
    subst hy
    exact hDLlast x hx
  have hhead2 : ∀ x ∈ ef2.head?, 1 ≤ x ∧ x ≤ t - ((n - 1 : ℕ) : ℤ) := by
    intro x hx
    rw [hef2, List.head?_append] at hx
    by_cases hcase : 1 < F.length
    · rw [List.head?_dropLast, if_pos hcase, hhead?F] at hx
      simp only [Option.or_some, Option.mem_def, Option.some.injEq] at hx
      subst hx
      exact ⟨hhead_ge, hhead_le⟩
    · have hn1eq : n = 1 := by omega
      rw [List.head?_dropLast, if_neg hcase] at hx
      simp only [List.head?_cons, Option.none_or, Option.mem_def, Option.some.injEq] at hx
      subst hx
      subst hn1eq
      simp
      omega
  have hlast2 : ef2.getLast? = some t := by
    rw [hef2]
    exact List.getLast?_concat _
  have hbwd : snapBwd ef2 = ef2 := snapBwd_eq_self ef2 hchain2
  rw [hset]
  refine ⟨?_, hef2len, hchain2, fun x hx => (hhead2 x hx).1, hlast2⟩
  rw [hbwd]
  obtain ⟨x, rest, hxr⟩ : ∃ x rest, ef2 = x :: rest := by
    match hef : ef2, hef2len with
    | [], hL => simp at hL; omega
    | x :: rest, _ => exact ⟨x, rest, rfl⟩
  rw [hxr]
  obtain ⟨hx1, hxle⟩ := hhead2 x (by rw [hxr]; rfl)
  simp only [List.headD_cons, List.set_cons_zero]
  rw [min_eq_left hxle, max_eq_right hx1]

/-- Claim C7 (amended): for a non-empty unit list whose count fits into the
total frame count, the snapped end-frame boundaries are strictly increasing
with at least one frame per unit (the first boundary is at least 1), the last
boundary is forced to the total frame count, and the total frame count
`max(1, int(totalDur·fps + 0.999999))` equals `max(1, ⌈totalDur·fps⌉)`
whenever the fractional part of `totalDur·fps` is zero or at least `1e-6`. -/
theorem snap_end_frames_spec (lineTimes : List (ℚ × ℚ)) (fps0 : ℤ) (totalDur0 : ℚ)
    (hne : lineTimes ≠ [])
    (hfit : (lineTimes.length : ℤ) ≤ totalFramesOf fps0 totalDur0) :
    (snapEndFrames lineTimes fps0 totalDur0).length = lineTimes.length ∧
      List.Chain' (· < ·) (snapEndFrames lineTimes fps0 totalDur0) ∧
      (∀ x ∈ (snapEndFrames lineTimes fps0 totalDur0).head?, 1 ≤ x) ∧
      (snapEndFrames lineTimes fps0 totalDur0).getLast? =
        some (totalFramesOf fps0 totalDur0) ∧
      (Int.fract (max 0 totalDur0 * (fpsEff fps0 : ℚ)) = 0 ∨
          1/1000000 ≤ Int.fract (max 0 totalDur0 * (fpsEff fps0 : ℚ)) →
        totalFramesOf fps0 totalDur0 = max 1 ⌈max 0 totalDur0 * (fpsEff fps0 : ℚ)⌉) := by
  set t := totalFramesOf fps0 totalDur0 with ht
  set n := lineTimes.length with hn
  set ef0 : List ℤ :=
    ((lineTimes.map (fun p => max 0 (min (max 0 totalDur0) p.2))).set (n - 1)
        (max 0 totalDur0)).map (fun x => pyRound (x * ((fpsEff fps0 : ℤ) : ℚ))) with hef0
  have hef0len : ef0.length = n := by rw [hef0]; simp [hn]
  have hef0ne : ef0 ≠ [] := by
    have : 0 < ef0.length := by
      rw [hef0len, hn]
      exact List.length_pos.2 hne
    exact List.ne_nil_of_length_pos this
  have hcomp : snapEndFrames lineTimes fps0 totalDur0 =
      (snapBwd ((snapFwd t 0 ef0).set (n - 1) t)).set 0
        (max 1 (min ((snapBwd ((snapFwd t 0 ef0).set (n - 1) t)).headD 0)
          (t - ((n - 1 : ℕ) : ℤ)))) := rfl
  obtain ⟨hid, hlen, hchain, hhead, hlast⟩ :=
    snapComposite_props t n ef0 hef0len hef0ne (totalFramesOf_pos fps0 totalDur0) hfit
  rw [hcomp, hid]
  exact ⟨hlen, hchain, hhead, hlast, totalFramesOf_eq_ceil fps0 totalDur0⟩

/-- Claim C7, as stated, is false: for the two degenerate units
`[(0,0), (0,0)]` at 25 fps with total duration 0, the snapped end-frame
boundaries are `[1, 1]` — not strictly increasing — and the last boundary (1)
is not the ceiling of `totalDuration · fps` (which is 0): the code's total
frame count is `max(1, int(x + 0.999999))`, not `⌈x⌉`. -/
theorem snap_line_times_claim_false :
    snapEndFrames [(0, 0), (0, 0)] 25 0 = [1, 1] ∧
      ¬ List.Chain' (· < · : ℤ → ℤ → Prop) [1, 1] ∧
      totalFramesOf 25 0 = 1 ∧ ⌈max 0 (0 : ℚ) * ((fpsEff 25 : ℤ) : ℚ)⌉ = 0 := by
  refine ⟨?_, ?_, ?_, ?_⟩
  · norm_num [snapEndFrames, totalFramesOf, fpsEff, pyTrunc, pyFloor_eq_floor, pyRound,
      snapFwd, snapBwd, List.set]
  · intro h
    have h1 := (List.chain'_cons.1 h).1
    omega
  · norm_num [totalFramesOf, fpsEff, pyTrunc, pyFloor_eq_floor]
  · norm_num [fpsEff]

/-- Witness for C7 at a concrete input: two one-second units at 25 fps with
total duration 2 (50 total frames). -/
theorem snap_end_frames_spec_witness :
    (snapEndFrames [((0 : ℚ), (1 : ℚ)), (1, 2)] 25 2).length = 2 ∧
      List.Chain' (· < ·) (snapEndFrames [((0 : ℚ), (1 : ℚ)), (1, 2)] 25 2) ∧
      (∀ x ∈ (snapEndFrames [((0 : ℚ), (1 : ℚ)), (1, 2)] 25 2).head?, 1 ≤ x) ∧
      (snapEndFrames [((0 : ℚ), (1 : ℚ)), (1, 2)] 25 2).getLast? = some (totalFramesOf 25 2) := by
  have hfit : ((([((0 : ℚ), (1 : ℚ)), (1, 2)] : List (ℚ × ℚ)).length : ℤ)) ≤
      totalFramesOf 25 2 := by
    norm_num [totalFramesOf, fpsEff, pyTrunc, pyFloor_eq_floor]
  obtain ⟨h1, h2, h3, h4, _⟩ :=
    snap_end_frames_spec [((0 : ℚ), (1 : ℚ)), (1, 2)] 25 2 (by simp) hfit
  exact ⟨by simpa using h1, h2, h3, h4⟩

/-! ### Claim C10 — `_split_script` quote handling -/

theorem dropWhile_head_not (p : Char → Bool) :
    ∀ l : List Char, ∀ x ∈ (l.dropWhile p).head?, p x = false
  | [], _, hx => by simp at hx
  | c :: rest, x, hx => by
    by_cases h : p c
    · rw [List.dropWhile_cons, if_pos h] at hx
      exact dropWhile_head_not p rest x hx
    · rw [List.dropWhile_cons, if_neg h] at hx
      simp only [List.head?_cons, Option.mem_def, Option.some.injEq] at hx
      subst hx
      exact Bool.not_eq_true _ ▸ (by simpa using h)

theorem suffix_getLast? {α : Type} {l1 l2 : List α} (h : l1 <:+ l2) (hne : l1 ≠ []) :
    l1.getLast? = l2.getLast? := by
  obtain ⟨pre, rfl⟩ := h
  rw [List.getLast?_append_of_ne_nil pre hne]

/-- The head of `pyStrip l` is not whitespace. -/
theorem pyStrip_head_not_space (l : List Char) :
    ∀ x ∈ (pyStrip l).head?, isPySpace x = false := by
  intro x hx
  rw [pyStrip, List.head?_reverse] at hx
  by_cases hB : ((l.dropWhile isPySpace).reverse.dropWhile isPySpace) = []
  · rw [hB] at hx
    simp at hx
  · rw [suffix_getLast? (List.dropWhile_suffix isPySpace) hB, List.getLast?_reverse] at hx
    exact dropWhile_head_not isPySpace _ x hx

/-- The last character of `pyStrip l` is not whitespace. -/
theorem pyStrip_last_not_space (l : List Char) :
    ∀ x ∈ (pyStrip l).getLast?, isPySpace x = false := by
  intro x hx
  rw [pyStrip, List.getLast?_reverse] at hx
  exact dropWhile_head_not isPySpace _ x hx

theorem dropWhile_eq_self_of_head (p : Char → Bool) (l : List Char)
    (h : ∀ x ∈ l.head?, p x = false) : l.dropWhile p = l := by
  cases l with
  | nil => rfl
  | cons c rest =>
    rw [List.dropWhile_cons, if_neg ?_]
    have := h c (by simp)
    simp [this]

/-- A list whose ends are not whitespace is fixed by `pyStrip`. -/
theorem pyStrip_eq_self_of_ends (l : List Char)
    (h1 : ∀ x ∈ l.head?, isPySpace x = false)
    (h2 : ∀ x ∈ l.getLast?, isPySpace x = false) : pyStrip l = l := by
  rw [pyStrip, dropWhile_eq_self_of_head isPySpace l h1]
  rw [dropWhile_eq_self_of_head isPySpace l.reverse (by rw [List.head?_reverse]; exact h2)]
  exact List.reverse_reverse l

theorem pyStrip_idem (l : List Char) : pyStrip (pyStrip l) = pyStrip l :=
  pyStrip_eq_self_of_ends _ (pyStrip_head_not_space l) (pyStrip_last_not_space l)

/-- A list fixed by `pyStrip` is fixed by `pyRStrip`. -/
theorem pyRStrip_eq_self_of_strip (l : List Char) (h : pyStrip l = l) : pyRStrip l = l := by
  rw [pyRStrip, dropWhile_eq_self_of_head isPySpace l.reverse ?_, List.reverse_reverse]
  rw [List.head?_reverse]
  intro x hx
  exact pyStrip_last_not_space l x (by rw [h]; exact hx)

theorem unitInv_append {a b : List Char} (ha : UnitInv a) (hb : UnitInv b) :
    UnitInv (a ++ b) := by
  refine ⟨by simp [ha.1], pyStrip_eq_self_of_ends _ ?_ ?_⟩
  · rw [List.head?_append_of_ne_nil a ha.1]
    intro x hx
    exact pyStrip_head_not_space a x (by rw [ha.2]; exact hx)
  · rw [List.getLast?_append_of_ne_nil a hb.1]
    intro x hx
    exact pyStrip_last_not_space b x (by rw [hb.2]; exact hx)

theorem ssFlush_inv (st : SplitScriptState) (h : ∀ u ∈ st.out, UnitInv u) :
    ∀ u ∈ (ssFlush st).out, UnitInv u := by
  intro u hu
  rw [ssFlush] at hu
  by_cases he : (pyStrip st.buf).isEmpty
  · rw [if_pos he] at hu
    exact h u hu
  · rw [if_neg he] at hu
    simp only [List.mem_append, List.mem_singleton] at hu
    rcases hu with hu | hu
    · exact h u hu
    · subst hu
      exact ⟨by simpa using he, pyStrip_idem st.buf⟩

theorem ssFlush_out (st : SplitScriptState) :
    (ssFlush st).out = st.out ∨
      ((ssFlush st).out = st.out ++ [pyStrip st.buf] ∧ pyStrip st.buf ≠ []) := by
  rw [ssFlush]
  by_cases h : (pyStrip st.buf).isEmpty
  · rw [if_pos h]
    exact Or.inl rfl
  · rw [if_neg h]
    exact Or.inr ⟨rfl, by simpa using h⟩

theorem splitScriptStep_inv (st : SplitScriptState) (ch : Char) (nxt : Option Char)
    (h : ∀ u ∈ st.out, UnitInv u) : ∀ u ∈ (splitScriptStep st ch nxt).out, UnitInv u := by
  intro u hu
  rw [splitScriptStep.eq_def] at hu
  dsimp only at hu
  repeat' split at hu
  all_goals
    first
      | exact h u hu
      | exact ssFlush_inv st h u hu
      | exact ssFlush_inv ⟨st.out, st.buf ++ [ch], true⟩ h u hu
      | exact ssFlush_inv ⟨st.out, st.buf ++ [ch], false⟩ h u hu
      | exact ssFlush_inv ⟨st.out, st.buf ++ [ch], !st.in_quote⟩ h u hu
      | exact ssFlush_inv ⟨st.out, st.buf ++ [ch], st.in_quote⟩ h u hu

theorem splitScriptGo_inv (raw : List Char) : ∀ (st : SplitScriptState),
    (∀ u ∈ st.out, UnitInv u) → ∀ u ∈ (splitScriptGo st raw).out, UnitInv u := by
  induction raw with
  | nil => intro st h; exact h
  | cons c rest ih =>
    intro st h
    exact ih _ (splitScriptStep_inv st c rest.head? h)

theorem mergeQuotedOnly_inv (l : List (List Char)) :
    ∀ acc : List (List Char), (∀ u ∈ acc, UnitInv u) → (∀ u ∈ l, UnitInv u) →
      ∀ u ∈ l.foldl
        (fun acc s =>
          if !acc.isEmpty ∧ is_quoted_only s then
            acc.dropLast ++ [pyRStrip (acc.getLastD []) ++ s]
          else acc ++ [s]) acc, UnitInv u := by
  induction l with
  | nil => intro acc hacc _; exact hacc
  | cons s rest ih =>
    intro acc hacc hl
    rw [List.foldl_cons]
    refine ih _ ?_ (fun u hu => hl u (by simp [hu]))
    by_cases hc : !(acc.isEmpty) ∧ is_quoted_only s
    · rw [if_pos hc]
      intro u hu
      simp only [List.mem_append, List.mem_singleton] at hu
      rcases hu with hu | hu
      · exact hacc u (List.dropLast_sublist acc |>.mem hu)
      · subst hu
        have hane : acc ≠ [] := by
          have := hc.1
          simpa [List.isEmpty_iff] using this
        have hlastmem : acc.getLastD [] ∈ acc := by
          rw [List.getLastD_eq_getLast?, List.getLast?_eq_getLast acc hane]
          exact List.getLast_mem hane
        have hlastinv := hacc _ hlastmem
        have hsinv : UnitInv s := hl s (by simp)
        rw [pyRStrip_eq_self_of_strip _ hlastinv.2]
        exact unitInv_append hlastinv hsinv
    · rw [if_neg hc]
      intro u hu
      simp only [List.mem_append, List.mem_singleton] at hu
      rcases hu with hu | hu
      · exact hacc u hu
      · subst hu
        exact hl u (by simp)

/-- The quoted-only merge pass adds one unit for the first raw unit and one
per non-quoted-only later unit: quoted-only units (other than the first) are
absorbed into their predecessor. -/
theorem mergeQuotedOnly_fold_length (l : List (List Char)) :
    ∀ acc : List (List Char), acc ≠ [] →
      (l.foldl
        (fun acc s =>
          if !acc.isEmpty ∧ is_quoted_only s then
            acc.dropLast ++ [pyRStrip (acc.getLastD []) ++ s]
          else acc ++ [s]) acc).length =
        acc.length + l.countP (fun s => !(is_quoted_only s)) := by
  induction l with
  | nil => intro acc _; simp
  | cons s rest ih =>
    intro acc hacc
    rw [List.foldl_cons, List.countP_cons]
    by_cases hq : is_quoted_only s
    · rw [if_pos ⟨by simpa [List.isEmpty_iff] using hacc, hq⟩]
      have hne2 : acc.dropLast ++ [pyRStrip (acc.getLastD []) ++ s] ≠ [] := by simp
      rw [ih _ hne2]
      have hlen : (acc.dropLast ++ [pyRStrip (acc.getLastD []) ++ s]).length = acc.length := by
        simp [List.length_dropLast]
        have : 0 < acc.length := List.length_pos.2 hacc
        omega
      rw [hlen]
      simp [hq]
    · rw [if_neg (by simp [hq])]
      rw [ih _ (by simp)]
      simp [hq]
      omega

/-- Claim C10: (a) while inside double quotes, a split-punctuation character
never ends a narration unit (the step leaves the emitted units unchanged);
(b) the post-pass merges every quoted-only unit with a preceding unit into
that predecessor, so the output length is one for the first raw unit plus one
per non-quoted-only later unit; (c) every unit returned by `_split_script` is
nonempty and stripped of surrounding whitespace. -/
theorem split_script_quote_handling :
    (∀ (st : SplitScriptState) (ch : Char) (nxt : Option Char),
        st.in_quote = true → isSplitChar ch = true →
        (splitScriptStep st ch nxt).out = st.out) ∧
      (∀ l : List (List Char), l ≠ [] →
        (mergeQuotedOnly l).length = 1 + l.tail.countP (fun s => !(is_quoted_only s))) ∧
      ∀ (raw : List Char) (u : List Char), u ∈ split_script raw →
        u ≠ [] ∧ pyStrip u = u := by
  refine ⟨?_, ?_, ?_⟩
  · intro st ch nxt hin hsplit
    have hr : ch ≠ '\r' := by rintro rfl; exact absurd hsplit (by decide)
    have hn : ch ≠ '\n' := by rintro rfl; exact absurd hsplit (by decide)
    have hq1 : ch ≠ '“' := by rintro rfl; exact absurd hsplit (by decide)
    have hq2 : ch ≠ '”' := by rintro rfl; exact absurd hsplit (by decide)
    have hq3 : ch ≠ '"' := by rintro rfl; exact absurd hsplit (by decide)
    rw [splitScriptStep.eq_def, if_neg hr, if_neg hn]
    simp only [if_neg hq1, if_neg hq2, if_neg hq3, hin]
    rfl
  · intro l hne
    cases l with
    | nil => exact absurd rfl hne
    | cons x xs =>
      rw [mergeQuotedOnly, List.foldl_cons]
      have hstep : (if !(([] : List (List Char)).isEmpty) ∧ is_quoted_only x then
          ([] : List (List Char)).dropLast ++ [pyRStrip (([] : List (List Char)).getLastD []) ++ x]
        else [] ++ [x]) = [x] := by
        rw [if_neg (by simp)]
        rfl
      rw [hstep, mergeQuotedOnly_fold_length xs [x] (by simp)]
      simp
  · intro raw u hu
    rw [split_script] at hu
    by_cases hemp : (pyStrip raw).isEmpty
    · rw [if_pos hemp] at hu
      simp at hu
    · rw [if_neg hemp] at hu
      have hout : ∀ v ∈ (ssFlush (splitScriptGo ⟨[], [], false⟩ raw)).out, UnitInv v := by
        apply ssFlush_inv
        apply splitScriptGo_inv raw ⟨[], [], false⟩
        intro v hv
        simp at hv
      have := mergeQuotedOnly_inv (ssFlush (splitScriptGo ⟨[], [], false⟩ raw)).out [] (by simp)
        hout u (by rw [mergeQuotedOnly] at hu; exact hu)
      exact this

/-- Witness for C10 at concrete inputs: a split comma inside quotes does not
flush; `["x。", "“a。”"]` merges to one unit; the units of a concrete script
are nonempty and stripped. -/
theorem split_script_quote_handling_witness :
    (splitScriptStep ⟨[], "“你".data, true⟩ '，' none).out = [] ∧
      (mergeQuotedOnly ["x。".data, "“a。”".data]).length =
        1 + (["x。".data, "“a。”".data] : List (List Char)).tail.countP
          (fun s => !(is_quoted_only s)) ∧
      ("你好。".data ≠ [] ∧ pyStrip "你好。".data = "你好。".data) := by
  refine ⟨?_, ?_, ?_⟩
  · exact split_script_quote_handling.1 ⟨[], "“你".data, true⟩ '，' none rfl (by decide)
  · exact split_script_quote_handling.2.1 ["x。".data, "“a。”".data] (by decide)
  · exact split_script_quote_handling.2.2 "你好。\n你好。".data "你好。".data (by decide)

/-! ### Claims C1 and C2 — alignment totality and strictness -/

theorem filter_dropWhile_not {α : Type} (p : α → Bool) (l : List α) :
    (l.dropWhile p).filter (fun c => !(p c)) = l.filter (fun c => !(p c)) := by
  induction l with
  | nil => rfl
  | cons a as ih =>
    by_cases h : p a = true
    · rw [List.dropWhile_cons_of_pos h, ih]
      simp [List.filter_cons, h]
    · rw [List.dropWhile_cons_of_neg h]

theorem filter_not_pyStrip (l : List Char) :
    (pyStrip l).filter (fun c => !(isPySpace c)) =
      l.filter (fun c => !(isPySpace c)) := by
  unfold pyStrip
  rw [List.filter_reverse, filter_dropWhile_not, List.filter_reverse,
    List.reverse_reverse, filter_dropWhile_not]

theorem cleanSpoken_pyStrip (l : List Char) :
    cleanSpoken (pyStrip l) = cleanSpoken l := by
  unfold cleanSpoken
  rw [filter_not_pyStrip]

theorem pyStrip_ne_nil_of_clean (u : List Char) (h : cleanSpoken u ≠ []) :
    pyStrip u ≠ [] := by
  intro he
  exact h (by rw [← cleanSpoken_pyStrip u, he]; rfl)

theorem alignParts_eq_map_strip (units : List (List Char))
    (h1 : ∀ u ∈ units, cleanSpoken u ≠ []) :
    alignParts units = units.map pyStrip := by
  unfold alignParts
  apply List.filter_eq_self.mpr
  intro p hp
  rw [List.mem_map] at hp
  obtain ⟨u, hu, rfl⟩ := hp
  have := pyStrip_ne_nil_of_clean u (h1 u hu)
  simp [List.isEmpty_iff, this]

theorem alignPartTok_eq (units : List (List Char))
    (h1 : ∀ u ∈ units, cleanSpoken u ≠ []) :
    (alignParts units).map cleanSpoken = units.map cleanSpoken := by
  rw [alignParts_eq_map_strip units h1, List.map_map]
  apply List.map_congr_left
  intro u _
  exact cleanSpoken_pyStrip u

theorem enumFrom_filter_map {α β : Type} (g : α → β) (q : β → Bool) (l : List α) :
    ∀ n : ℕ,
      ((List.enumFrom n l).filter (fun p => q (g p.2))).map (fun p => g p.2) =
        (l.map g).filter q := by
  induction l with
  | nil => intro n; rfl
  | cons a as ih =>
    intro n
    by_cases h : q (g a) = true
    · simp [List.enumFrom_cons, List.filter_cons, h, ih (n + 1)]
    · simp [List.enumFrom_cons, List.filter_cons, h, ih (n + 1)]

theorem alignWordTok_eq (words : List WordItem) :
    alignWordTok words =
      (words.map (fun w => cleanSpoken w.text)).filter (fun t => !(t.isEmpty)) := by
  unfold alignWordTok alignKept
  have he : words.enum = List.enumFrom 0 words := rfl
  rw [he]
  exact enumFrom_filter_map (fun w : WordItem => cleanSpoken w.text)
    (fun t => !(t.isEmpty)) words 0

theorem flatten_filter_not_isEmpty {α : Type} (L : List (List α)) :
    (L.filter (fun t => !(t.isEmpty))).flatten = L.flatten := by
  induction L with
  | nil => rfl
  | cons t ts ih =>
    by_cases h : t.isEmpty = true
    · have ht : t = [] := List.isEmpty_iff.mp h
      subst ht
      simp [List.filter_cons, ih]
    · simp [List.filter_cons, h, ih]

theorem alignWordTok_flatten (words : List WordItem) :
    (alignWordTok words).flatten = cleanWordsJoin words := by
  unfold cleanWordsJoin
  rw [alignWordTok_eq]
  exact flatten_filter_not_isEmpty _

theorem zip_tail_length {α : Type} (l : List α) :
    (l.zip l.tail).length = l.length - 1 := by
  rw [List.length_zip, List.length_tail]
  omega

theorem alignBoundsTok_length (partTok wordTok : List (List Char))
    (h : partTok ≠ []) :
    (alignBoundsTok partTok wordTok).length = partTok.length + 1 := by
  have hp : 0 < partTok.length := List.length_pos.mpr h
  unfold alignBoundsTok
  simp only [List.length_cons, List.length_append, List.length_map,
    List.length_drop, List.length_scanl, List.length_dropLast,
    List.length_singleton, List.length_nil]
  omega

theorem alignRanges_length (wordMap : List ℕ) (bT : List ℕ) :
    (alignRanges wordMap bT).length = bT.length - 1 := by
  unfold alignRanges
  rw [List.length_map, zip_tail_length]

theorem rawMids_length (words : List WordItem) (ranges : List (ℕ × ℕ)) :
    (rawMids words ranges).length = ranges.length - 1 := by
  unfold rawMids rawEnds rawStarts
  rw [List.length_zipWith, List.length_take, List.length_drop,
    List.length_map, List.length_map]
  omega

theorem alignIntervalsRaw_none (words : List WordItem) (ranges : List (ℕ × ℕ)) :
    alignIntervalsRaw words ranges none =
      ((rawStarts words ranges).headD 0 :: rawMids words ranges).zip
        (rawMids words ranges ++ [(rawEnds words ranges).getLastD 0]) := rfl

theorem alignIntervalsRaw_some (words : List WordItem) (ranges : List (ℕ × ℕ))
    (d : ℚ) :
    alignIntervalsRaw words ranges (some d) =
      (((rawStarts words ranges).headD 0 :: rawMids words ranges).set 0 0).zip
        ((rawMids words ranges ++ [(rawEnds words ranges).getLastD 0]).set
          ((rawStarts words ranges).length - 1) d) := rfl

theorem set_append_singleton {α : Type} (l : List α) (e d : α) :
    (l ++ [e]).set l.length d = l ++ [d] := by
  induction l with
  | nil => rfl
  | cons a as ih =>
    rw [List.cons_append, List.length_cons, List.set_cons_succ, ih,
      List.cons_append]

theorem alignIntervalsRaw_shape (words : List WordItem) (ranges : List (ℕ × ℕ))
    (td : Option ℚ) :
    ∃ h0 lastE : ℚ,
      alignIntervalsRaw words ranges td =
        (h0 :: rawMids words ranges).zip (rawMids words ranges ++ [lastE]) ∧
      ∀ d : ℚ, td = some d → h0 = 0 ∧ lastE = d := by
  cases td with
  | none =>
    exact ⟨(rawStarts words ranges).headD 0, (rawEnds words ranges).getLastD 0,
      alignIntervalsRaw_none words ranges, fun d hd => Option.noConfusion hd⟩
  | some d =>
    refine ⟨0, d, ?_, fun d2 hd2 => by cases hd2; exact ⟨rfl, rfl⟩⟩
    rw [alignIntervalsRaw_some, List.set_cons_zero]
    congr 1
    have h1 : (rawStarts words ranges).length - 1 = (rawMids words ranges).length := by
      unfold rawStarts
      rw [List.length_map, rawMids_length]
    rw [h1, set_append_singleton]

theorem zipShift_cons (h0 lastE : ℚ) (mids : List ℚ) :
    ∃ e0 rest, (h0 :: mids).zip (mids ++ [lastE]) = (h0, e0) :: rest := by
  cases mids with
  | nil => exact ⟨lastE, [], rfl⟩
  | cons m ms => exact ⟨m, _, rfl⟩

theorem zipShift_length (mids : List ℚ) (h0 lastE : ℚ) :
    ((h0 :: mids).zip (mids ++ [lastE])).length = mids.length + 1 := by
  rw [List.length_zip, List.length_cons, List.length_append,
    List.length_singleton]
  omega

theorem zipShift_chain (mids : List ℚ) : ∀ h0 lastE : ℚ,
    List.Chain' (fun x y : ℚ × ℚ => y.1 = x.2)
      ((h0 :: mids).zip (mids ++ [lastE])) := by
  induction mids with
  | nil => intro h0 lastE; simp
  | cons m ms ih =>
    intro h0 lastE
    cases ms with
    | nil => simp [List.zip_cons_cons]
    | cons m2 ms2 =>
      have hrec := ih m lastE
      simp only [List.cons_append, List.zip_cons_cons] at hrec ⊢
      exact List.chain'_cons.mpr ⟨rfl, hrec⟩

theorem zipShift_last (mids : List ℚ) : ∀ h0 lastE : ℚ,
    ∃ q : ℚ × ℚ,
      ((h0 :: mids).zip (mids ++ [lastE])).getLast? = some q ∧ q.2 = lastE := by
  induction mids with
  | nil => intro h0 lastE; exact ⟨(h0, lastE), by simp, rfl⟩
  | cons m ms ih =>
    intro h0 lastE
    obtain ⟨q, hq, hq2⟩ := ih m lastE
    refine ⟨q, ?_, hq2⟩
    obtain ⟨z, zs, hz⟩ := List.exists_cons_of_ne_nil
      (show ms ++ [lastE] ≠ [] by simp)
    rw [List.cons_append, List.zip_cons_cons, hz, List.zip_cons_cons,
      List.getLast?_cons_cons, ← List.zip_cons_cons, ← hz]
    exact hq

theorem clampMonoPairs_cons (prev s e : ℚ) (rest : List (ℚ × ℚ)) :
    clampMonoPairs prev ((s, e) :: rest) =
      (max prev s, max (max prev s + 1/50) e) ::
        clampMonoPairs (max (max prev s + 1/50) e) rest := rfl

theorem clampMonoPairs_length (prev : ℚ) (l : List (ℚ × ℚ)) :
    (clampMonoPairs prev l).length = l.length := by
  induction l generalizing prev with
  | nil => rfl
  | cons p rest ih =>
    obtain ⟨s, e⟩ := p
    rw [clampMonoPairs_cons, List.length_cons, List.length_cons, ih]

theorem clampMonoPairs_adj (l : List (ℚ × ℚ)) :
    ∀ prev : ℚ, List.Chain' (fun x y : ℚ × ℚ => y.1 ≤ x.2) l →
      List.Chain' (fun a b : ℚ × ℚ => a.2 = b.1) (clampMonoPairs prev l) := by
  induction l with
  | nil => intro prev _; exact List.chain'_nil
  | cons p rest ih =>
    intro prev h
    obtain ⟨s, e⟩ := p
    rw [clampMonoPairs_cons]
    refine List.chain'_cons'.mpr ⟨?_, ih _ h.tail⟩
    intro b hb
    cases rest with
    | nil => simp [clampMonoPairs] at hb
    | cons p2 rest2 =>
      obtain ⟨s2, e2⟩ := p2
      rw [clampMonoPairs_cons] at hb
      simp only [List.head?_cons, Option.mem_def, Option.some.injEq] at hb
      have hs2 : s2 ≤ e := (List.chain'_cons.mp h).1
      have hle : s2 ≤ max (max prev s + 1/50) e :=
        le_trans hs2 (le_max_right _ _)
      rw [← hb]
      exact (max_eq_left hle).symm

theorem clampMonoPairs_head_fst (prev s e : ℚ) (rest : List (ℚ × ℚ)) :
    (clampMonoPairs prev ((s, e) :: rest)).head?.map Prod.fst =
      some (max prev s) := by
  rw [clampMonoPairs_cons]
  rfl

theorem clampMonoPairs_last (l : List (ℚ × ℚ)) : ∀ (prev : ℚ) (q0 : ℚ × ℚ),
    l.getLast? = some q0 →
      ∃ q : ℚ × ℚ, (clampMonoPairs prev l).getLast? = some q ∧
        q.2 = max (q.1 + 1/50) q0.2 := by
  induction l with
  | nil => intro prev q0 h; simp at h
  | cons p rest ih =>
    intro prev q0 h
    obtain ⟨s, e⟩ := p
    cases rest with
    | nil =>
      simp only [List.getLast?_singleton, Option.some.injEq] at h
      rw [clampMonoPairs_cons]
      refine ⟨(max prev s, max (max prev s + 1/50) e), by simp [clampMonoPairs], ?_⟩
      rw [← h]
    | cons p2 rest2 =>
      have h2 : (p2 :: rest2).getLast? = some q0 := by
        rw [← h]
        exact (List.getLast?_cons_cons ..).symm
      obtain ⟨q, hq, hq2⟩ := ih (max (max prev s + 1/50) e) q0 h2
      refine ⟨q, ?_, hq2⟩
      rw [clampMonoPairs_cons]
      obtain ⟨s2, e2⟩ := p2
      rw [clampMonoPairs_cons, List.getLast?_cons_cons, ← clampMonoPairs_cons]
      rw [clampMonoPairs_cons] at hq
      exact hq

theorem firstDiffIdx_spec (a : List Char) : ∀ b : List Char, a ≠ b →
    (∀ j < firstDiffIdx a b, a[j]? = b[j]?) ∧
      a[firstDiffIdx a b]? ≠ b[firstDiffIdx a b]? := by
  induction a with
  | nil =>
    intro b hb
    cases b with
    | nil => exact absurd rfl hb
    | cons y ys =>
      refine ⟨fun j hj => ?_, ?_⟩
      · simp [firstDiffIdx] at hj
      · simp [firstDiffIdx]
  | cons x xs ih =>
    intro b hb
    cases b with
    | nil =>
      refine ⟨fun j hj => ?_, ?_⟩
      · simp [firstDiffIdx] at hj
      · simp [firstDiffIdx]
    | cons y ys =>
      by_cases hxy : x = y
      · subst hxy
        have hne : xs ≠ ys := fun hc => hb (by rw [hc])
        obtain ⟨ha, hd⟩ := ih ys hne
        have hstep : firstDiffIdx (x :: xs) (x :: ys) = firstDiffIdx xs ys + 1 := by
          rw [firstDiffIdx]
          simp
        refine ⟨fun j hj => ?_, ?_⟩
        · rw [hstep] at hj
          cases j with
          | zero => simp
          | succ j2 =>
            rw [List.getElem?_cons_succ, List.getElem?_cons_succ]
            exact ha j2 (by omega)
        · rw [hstep, List.getElem?_cons_succ, List.getElem?_cons_succ]
          exact hd
      · have hstep : firstDiffIdx (x :: xs) (y :: ys) = 0 := by
          rw [firstDiffIdx]
          simp [hxy]
        refine ⟨fun j hj => ?_, ?_⟩
        · rw [hstep] at hj
          omega
        · rw [hstep]
          simp [hxy]

/-- Claim C1 (amended): when every unit cleans to a nonempty spoken string and
the cleaned concatenation of the units equals that of the word tokens,
`align_script_parts_to_words` succeeds with exactly `units.length` intervals,
each `start ≤ end`, consecutive intervals sharing their boundary
(`end i = start (i+1)`); when a total duration `d` is supplied (and the unit
list is nonempty) the first start is 0 and the last end is
`max (last start + 0.02) d` — which equals `d` itself only when
`d ≥ last start + 0.02`. -/
theorem alignment_totality (words : List WordItem) (units : List (List Char))
    (td : Option ℚ)
    (h1 : ∀ u ∈ units, cleanSpoken u ≠ [])
    (h2 : cleanJoin units = cleanWordsJoin words) :
    ∃ l, align_script_parts_to_words words units td = .ok l ∧
      l.length = units.length ∧
      (∀ p ∈ l, p.1 ≤ p.2) ∧
      List.Chain' (fun a b : ℚ × ℚ => a.2 = b.1) l ∧
      ∀ d : ℚ, td = some d → units ≠ [] →
        l.head?.map Prod.fst = some 0 ∧
        ∃ q, l.getLast? = some q ∧ q.2 = max (q.1 + 1/50) d := by
  by_cases hu : units = []
  · subst hu
    exact ⟨[], rfl, rfl, by simp, List.chain'_nil, fun d hd hne => absurd rfl hne⟩
  · have hupos : 0 < units.length := List.length_pos.mpr hu
    have hparts : alignParts units = units.map pyStrip := alignParts_eq_map_strip units h1
    have hpne : alignParts units ≠ [] := by
      rw [hparts]
      intro hc
      exact hu (List.map_eq_nil_iff.mp hc)
    have hptok : (alignParts units).map cleanSpoken = units.map cleanSpoken :=
      alignPartTok_eq units h1
    have hflatS : ((alignParts units).map cleanSpoken).flatten = cleanJoin units := by
      rw [hptok]; rfl
    have hflatW : (alignWordTok words).flatten = cleanWordsJoin words :=
      alignWordTok_flatten words
    have hJ : cleanJoin units ≠ [] := by
      cases units with
      | nil => exact absurd rfl hu
      | cons u0 us =>
        have hc0 : cleanSpoken u0 ≠ [] := h1 u0 (List.mem_cons_self _ _)
        intro hc
        unfold cleanJoin at hc
        rw [List.map_cons, List.flatten_cons, List.append_eq_nil] at hc
        exact hc0 hc.1
    have hwsne : ¬(words.isEmpty = true) := by
      intro hev
      have hwnil := List.isEmpty_iff.mp hev
      subst hwnil
      exact hJ (by rw [h2]; rfl)
    have hwtne : ¬((alignWordTok words).isEmpty = true) := by
      intro hev
      have hwtnil := List.isEmpty_iff.mp hev
      apply hJ
      rw [h2, ← hflatW, hwtnil]
      rfl
    have hpnempty : ¬((alignParts units).isEmpty = true) := by
      intro hev
      exact hpne (List.isEmpty_iff.mp hev)
    have hanyf : ¬(((alignParts units).map cleanSpoken).any (fun t => t.isEmpty) = true) := by
      intro hany
      rw [hptok, List.any_eq_true] at hany
      obtain ⟨t, ht, htE⟩ := hany
      rw [List.mem_map] at ht
      obtain ⟨u, hu2, rfl⟩ := ht
      exact h1 u hu2 (List.isEmpty_iff.mp htE)
    have heqW : ¬(((alignParts units).map cleanSpoken).flatten ≠ (alignWordTok words).flatten) := by
      intro hne
      exact hne (by rw [hflatS, hflatW, h2])
    have hres : align_script_parts_to_words words units td =
        .ok (clampMonoPairs 0 (alignIntervalsRaw words
          (alignRanges (alignWordMap words)
            (alignBoundsTok ((alignParts units).map cleanSpoken)
              (alignWordTok words))) td)) := by
      simp only [align_script_parts_to_words]
      rw [if_neg hpnempty, if_neg hwsne, if_neg hwtne, if_neg hanyf, if_neg heqW]
    set R := alignRanges (alignWordMap words)
      (alignBoundsTok ((alignParts units).map cleanSpoken) (alignWordTok words)) with hR
    have hptokne : (alignParts units).map cleanSpoken ≠ [] := by
      intro hc
      exact hpne (List.map_eq_nil_iff.mp hc)
    have hRlen : R.length = units.length := by
      rw [hR, alignRanges_length, alignBoundsTok_length _ _ hptokne,
        List.length_map, hparts, List.length_map]
      omega
    obtain ⟨hd0, lastE, hshape, hforce⟩ := alignIntervalsRaw_shape words R td
    have hmidlen : (rawMids words R).length = units.length - 1 := by
      rw [rawMids_length, hRlen]
    refine ⟨_, hres, ?_, ?_, ?_, ?_⟩
    · rw [clampMonoPairs_length, hshape, zipShift_length, hmidlen]
      omega
    · intro p hp
      have := clampMonoPairs_dur 0 _ p hp
      linarith
    · apply clampMonoPairs_adj
      rw [hshape]
      exact List.Chain'.imp (fun a b hab => le_of_eq hab)
        (zipShift_chain (rawMids words R) hd0 lastE)
    · intro d hd hne
      obtain ⟨hh0, hlE⟩ := hforce d hd
      rw [hh0, hlE] at hshape
      constructor
      · obtain ⟨e0, rest, hc⟩ := zipShift_cons 0 d (rawMids words R)
        rw [hshape, hc, clampMonoPairs_head_fst]
        simp
      · obtain ⟨q0, hq0, hq02⟩ := zipShift_last (rawMids words R) 0 d
        rw [hshape]
        obtain ⟨q, hq, hq2⟩ := clampMonoPairs_last _ 0 q0 hq0
        exact ⟨q, hq, by rw [hq2, hq02]⟩

/-- Claim C1 as stated is false: with unit list `["你好"]`, one word
`("你好", 0, 1/2)` and `totalDuration = 1/1000`, the cleaned concatenations
agree, yet the single returned interval is `(0, 1/50)`: its end is the clamped
minimum duration 0.02, not the supplied total duration 0.001. -/
theorem alignment_totality_claim_false :
    cleanJoin ["你好".data] = cleanWordsJoin [⟨"你好".data, 0, 1/2⟩] ∧
      align_script_parts_to_words [⟨"你好".data, 0, 1/2⟩] ["你好".data]
        (some (1/1000)) = .ok [(0, 1/50)] ∧
      (1 : ℚ)/50 ≠ 1/1000 := by
  refine ⟨by decide, ?_, by norm_num⟩
  have h1 : alignParts ["你好".data] = ["你好".data] := by decide
  have h2 : alignWordTok [⟨"你好".data, 0, 1/2⟩] = ["你好".data] := by
    simp [alignWordTok, alignKept, List.enum, List.enumFrom, cleanSpoken,
      isSpokenChar, isPySpace]
  have h3 : alignWordMap [⟨"你好".data, 0, 1/2⟩] = [0] := by
    simp [alignWordMap, alignKept, List.enum, List.enumFrom, cleanSpoken,
      isSpokenChar, isPySpace]
  have h4 : alignIntervalsRaw [⟨"你好".data, 0, 1/2⟩] [(0, 1)] (some (1/1000)) =
      [(0, 1/1000)] := by
    simp [alignIntervalsRaw]
  simp only [align_script_parts_to_words, h1, h2, h3]
  norm_num +decide [cleanSpoken, isSpokenChar, isPySpace, alignBoundsTok, cumEndOf,
    posToTokIdx, alignRanges, h4, clampMonoPairs]

/-- Witness for C1 at concrete inputs: one unit, one word, no total duration;
both hypotheses hold by computation and the theorem yields one interval. -/
theorem alignment_totality_witness :
    (∀ u ∈ (["你好".data] : List (List Char)), cleanSpoken u ≠ []) ∧
      cleanJoin ["你好".data] = cleanWordsJoin [⟨"你好".data, 0, 1⟩] ∧
      ∃ l, align_script_parts_to_words [⟨"你好".data, 0, 1⟩] ["你好".data] none =
        .ok l ∧ l.length = 1 := by
  refine ⟨by decide, by decide, ?_⟩
  obtain ⟨l, hok, hlen, -, -, -⟩ :=
    alignment_totality [⟨"你好".data, 0, 1⟩] ["你好".data] none (by decide) (by decide)
  exact ⟨l, hok, hlen⟩

/-- Claim C2 (amended): when the unit list is nonempty, every unit cleans to a
nonempty spoken string, some word token cleans to a nonempty string, and the
cleaned concatenations differ, `align_script_parts_to_words` fails with a
mismatch error carrying the first differing character offset and the context
snippets of both sides; the reported offset is a true first difference. (The
unconditional form of the claim is false: see the counterexample, where a
differing empty unit list yields `.ok []` instead of an error.) -/
theorem alignment_strictness (words : List WordItem) (units : List (List Char))
    (td : Option ℚ)
    (h0 : units ≠ [])
    (h1 : ∀ u ∈ units, cleanSpoken u ≠ [])
    (hw : ∃ w ∈ words, cleanSpoken w.text ≠ [])
    (h2 : cleanJoin units ≠ cleanWordsJoin words) :
    align_script_parts_to_words words units td =
      .error (.mismatch (firstDiffIdx (cleanJoin units) (cleanWordsJoin words))
        (mismatchSnip (cleanJoin units)
          (firstDiffIdx (cleanJoin units) (cleanWordsJoin words)))
        (mismatchSnip (cleanWordsJoin words)
          (firstDiffIdx (cleanJoin units) (cleanWordsJoin words)))) ∧
      (∀ j < firstDiffIdx (cleanJoin units) (cleanWordsJoin words),
        (cleanJoin units)[j]? = (cleanWordsJoin words)[j]?) ∧
      (cleanJoin units)[firstDiffIdx (cleanJoin units) (cleanWordsJoin words)]? ≠
        (cleanWordsJoin words)[firstDiffIdx (cleanJoin units) (cleanWordsJoin words)]? := by
  have hparts : alignParts units = units.map pyStrip := alignParts_eq_map_strip units h1
  have hpne : alignParts units ≠ [] := by
    rw [hparts]
    intro hc
    exact h0 (List.map_eq_nil_iff.mp hc)
  have hptok : (alignParts units).map cleanSpoken = units.map cleanSpoken :=
    alignPartTok_eq units h1
  have hflatS : ((alignParts units).map cleanSpoken).flatten = cleanJoin units := by
    rw [hptok]; rfl
  have hflatW : (alignWordTok words).flatten = cleanWordsJoin words :=
    alignWordTok_flatten words
  obtain ⟨w, hwmem, hwcne⟩ := hw
  have hwTne : alignWordTok words ≠ [] := by
    apply List.ne_nil_of_mem (a := cleanSpoken w.text)
    rw [alignWordTok_eq, List.mem_filter]
    refine ⟨List.mem_map_of_mem _ hwmem, ?_⟩
    simp [List.isEmpty_iff, hwcne]
  have hwsne : ¬(words.isEmpty = true) := by
    intro hev
    have hwnil := List.isEmpty_iff.mp hev
    subst hwnil
    simp at hwmem
  have hwtne : ¬((alignWordTok words).isEmpty = true) := by
    intro hev
    exact hwTne (List.isEmpty_iff.mp hev)
  have hpnempty : ¬((alignParts units).isEmpty = true) := by
    intro hev
    exact hpne (List.isEmpty_iff.mp hev)
  have hanyf : ¬(((alignParts units).map cleanSpoken).any (fun t => t.isEmpty) = true) := by
    intro hany
    rw [hptok, List.any_eq_true] at hany
    obtain ⟨t, ht, htE⟩ := hany
    rw [List.mem_map] at ht
    obtain ⟨u, hu2, rfl⟩ := ht
    exact h1 u hu2 (List.isEmpty_iff.mp htE)
  have hneq : ((alignParts units).map cleanSpoken).flatten ≠ (alignWordTok words).flatten := by
    rw [hflatS, hflatW]
    exact h2
  constructor
  · simp only [align_script_parts_to_words]
    rw [if_neg hpnempty, if_neg hwsne, if_neg hwtne, if_neg hanyf, if_pos hneq]
    rw [hflatS, hflatW]
  · exact firstDiffIdx_spec (cleanJoin units) (cleanWordsJoin words) h2

/-- Claim C2 as stated is false: with an empty unit list against a word stream
cleaning to "你好", the cleaned concatenations differ (`"" ≠ "你好"`), yet the
function returns the best-effort result `.ok []` instead of a mismatch error. -/
theorem alignment_strictness_claim_false :
    cleanJoin [] ≠ cleanWordsJoin [⟨"你好".data, 0, 1⟩] ∧
      align_script_parts_to_words [⟨"你好".data, 0, 1⟩] [] none = .ok [] :=
  ⟨by decide, rfl⟩

/-- Witness for C2 at concrete inputs: script "你好" against word stream
"你坏" differs at offset 1 and produces the matching mismatch error. -/
theorem alignment_strictness_witness :
    cleanJoin ["你好".data] ≠ cleanWordsJoin [⟨"你坏".data, 0, 1⟩] ∧
      align_script_parts_to_words [⟨"你坏".data, 0, 1⟩] ["你好".data] none =
        .error (.mismatch 1 "你好".data "你坏".data) := by
  refine ⟨by decide, ?_⟩
  have h := alignment_strictness [⟨"你坏".data, 0, 1⟩] ["你好".data] none
    (by decide) (by decide) (by decide) (by decide)
  exact h.1.trans (congrArg Except.error (by decide))

/-! ### Claim C3 — shot segmentation bound invariants -/

theorem pyRound_bounds (y : ℚ) :
    y - 1/2 ≤ (pyRound y : ℚ) ∧ (pyRound y : ℚ) ≤ y + 1/2 := by
  have hfl : ((⌊y⌋ : ℤ) : ℚ) ≤ y := Int.floor_le y
  have hfu : y < ((⌊y⌋ : ℤ) : ℚ) + 1 := Int.lt_floor_add_one y
  simp only [pyRound, pyFloor_eq_floor]
  split_ifs with h1 h2 h3
  · constructor <;> linarith
  · constructor <;> push_cast <;> linarith
  · constructor <;> linarith
  · constructor <;> push_cast <;> linarith

theorem pyRound3_bounds (x : ℚ) :
    x - 1/2000 ≤ pyRound3 x ∧ pyRound3 x ≤ x + 1/2000 := by
  obtain ⟨h1, h2⟩ := pyRound_bounds (x * 1000)
  unfold pyRound3
  constructor <;> linarith

theorem splitOneAux_bounds (minSec targetSec maxSec : ℚ)
    (hm : 1/2 ≤ minSec) (hmt : minSec ≤ targetSec) (htM : targetSec ≤ maxSec)
    (h2m : 2 * minSec ≤ maxSec) :
    ∀ (fuel : ℕ) (s e : ℚ), minSec ≤ e - s → 2 * (e - s) ≤ (fuel : ℚ) →
      ∀ p ∈ splitOneAux minSec targetSec maxSec fuel s e,
        minSec ≤ p.2 - p.1 ∧ p.2 - p.1 ≤ maxSec + 1/1000000 := by
  intro fuel
  induction fuel with
  | zero =>
    intro s e hse hfuel p hp
    exfalso
    push_cast at hfuel
    linarith
  | succ n ih =>
    intro s e hse hfuel p hp
    push_cast at hfuel
    simp only [splitOneAux] at hp
    by_cases hc : maxSec + 1/1000000 < e - s
    · rw [if_pos hc] at hp
      have hnxtv : max (s + 1/2) (min
          (if e - (s + targetSec) < minSec then e - minSec else s + targetSec)
          (e - 1/2)) =
          if e - (s + targetSec) < minSec then e - minSec else s + targetSec := by
        by_cases hb : e - (s + targetSec) < minSec
        · rw [if_pos hb]
          have hx1 : e - minSec ≤ e - 1/2 := by linarith
          rw [min_eq_left hx1]
          have hx2 : s + 1/2 ≤ e - minSec := by linarith
          rw [max_eq_right hx2]
        · rw [if_neg hb]
          push_neg at hb
          have hx1 : s + targetSec ≤ e - 1/2 := by linarith
          rw [min_eq_left hx1]
          have hx2 : s + 1/2 ≤ s + targetSec := by linarith
          rw [max_eq_right hx2]
      rw [hnxtv] at hp
      rcases List.mem_cons.mp hp with hpeq | hprec
      · subst hpeq
        by_cases hb : e - (s + targetSec) < minSec
        · rw [if_pos hb]
          constructor
          · show minSec ≤ (e - minSec) - s
            linarith
          · show (e - minSec) - s ≤ maxSec + 1/1000000
            linarith
        · rw [if_neg hb]
          push_neg at hb
          constructor
          · show minSec ≤ (s + targetSec) - s
            linarith
          · show (s + targetSec) - s ≤ maxSec + 1/1000000
            linarith
      · by_cases hb : e - (s + targetSec) < minSec
        · rw [if_pos hb] at hprec
          apply ih (e - minSec) e ?_ ?_ p hprec
          · show minSec ≤ e - (e - minSec)
            linarith
          · show 2 * (e - (e - minSec)) ≤ (n : ℚ)
            linarith
        · rw [if_neg hb] at hprec
          push_neg at hb
          apply ih (s + targetSec) e ?_ ?_ p hprec
          · show minSec ≤ e - (s + targetSec)
            linarith
          · show 2 * (e - (s + targetSec)) ≤ (n : ℚ)
            linarith
    · rw [if_neg hc] at hp
      rw [List.mem_singleton] at hp
      subst hp
      refine ⟨hse, ?_⟩
      show e - s ≤ maxSec + 1/1000000
      linarith [not_lt.mp hc]

theorem splitOneSlice_bounds (minSec targetSec maxSec : ℚ)
    (hm : 1/2 ≤ minSec) (hmt : minSec ≤ targetSec) (htM : targetSec ≤ maxSec)
    (h2m : 2 * minSec ≤ maxSec) (s e : ℚ) (hse : minSec ≤ e - s) :
    ∀ p ∈ splitOneSlice minSec targetSec maxSec s e,
      minSec ≤ p.2 - p.1 ∧ p.2 - p.1 ≤ maxSec + 1/1000000 := by
  intro p hp
  apply splitOneAux_bounds minSec targetSec maxSec hm hmt htM h2m
    (2 * (pyCeil (e - s)).toNat + 2) s e hse ?_ p hp
  have h1 : e - s ≤ ((⌈e - s⌉ : ℤ) : ℚ) := Int.le_ceil _
  have h2 : (0 : ℤ) ≤ ⌈e - s⌉ := Int.ceil_nonneg (by linarith)
  have h3 : ((⌈e - s⌉.toNat : ℕ) : ℚ) = ((⌈e - s⌉ : ℤ) : ℚ) := by
    exact_mod_cast congrArg Int.cast (Int.toNat_of_nonneg h2)
  rw [pyCeil_eq_ceil]
  push_cast
  rw [h3]
  linarith

theorem splitOneSlice_short (minSec targetSec maxSec : ℚ) (s e : ℚ)
    (h : e - s ≤ maxSec + 1/1000000) :
    splitOneSlice minSec targetSec maxSec s e = [(s, e)] := by
  rw [splitOneSlice]
  have hf : 2 * (pyCeil (e - s)).toNat + 2 = (2 * (pyCeil (e - s)).toNat + 1) + 1 := rfl
  rw [hf]
  simp only [splitOneAux]
  rw [if_neg (not_lt.mpr h)]

theorem mergeSlicesGo_props (minSec : ℚ) :
    ∀ (rest : List (ℚ × ℚ)) (cur : ℚ × ℚ),
      cur.1 ≤ cur.2 → (∀ p ∈ rest, p.1 ≤ p.2) →
      List.Chain' (fun a b : ℚ × ℚ => a.2 ≤ b.1) (cur :: rest) →
      ∃ pre lst, mergeSlicesGo minSec cur rest = pre ++ [lst] ∧
        (∀ p ∈ pre, minSec ≤ p.2 - p.1) ∧
        (∀ p ∈ pre ++ [lst], p.1 ≤ p.2) ∧
        List.Chain' (fun a b : ℚ × ℚ => a.2 ≤ b.1) (pre ++ [lst]) ∧
        ∃ hd0 tl0, pre ++ [lst] = hd0 :: tl0 ∧ hd0.1 = cur.1 := by
  intro rest
  induction rest with
  | nil =>
    intro cur hcur hrest hchain
    refine ⟨[], cur, rfl, ?_, ?_, List.chain'_singleton cur, cur, [], rfl, rfl⟩
    · intro p hp
      simp at hp
    · intro p hp
      rw [List.nil_append, List.mem_singleton] at hp
      subst hp
      exact hcur
  | cons q rest2 ih =>
    intro cur hcur hrest hchain
    obtain ⟨s, e⟩ := q
    have hcs : cur.2 ≤ s := (List.chain'_cons.mp hchain).1
    have hqse : s ≤ e := hrest (s, e) (List.mem_cons_self _ _)
    have htail : List.Chain' (fun a b : ℚ × ℚ => a.2 ≤ b.1) ((s, e) :: rest2) :=
      (List.chain'_cons.mp hchain).2
    have hrest2 : ∀ p ∈ rest2, p.1 ≤ p.2 :=
      fun p hp => hrest p (List.mem_cons_of_mem _ hp)
    by_cases hshort : cur.2 - cur.1 < minSec
    · have hres : mergeSlicesGo minSec cur ((s, e) :: rest2) =
          mergeSlicesGo minSec (cur.1, e) rest2 := by
        simp only [mergeSlicesGo]
        rw [if_pos hshort]
      have hc1 : ((cur.1, e) : ℚ × ℚ).1 ≤ ((cur.1, e) : ℚ × ℚ).2 := by
        show cur.1 ≤ e
        linarith
      have hc3 : List.Chain' (fun a b : ℚ × ℚ => a.2 ≤ b.1) ((cur.1, e) :: rest2) := by
        refine List.chain'_cons'.mpr ⟨?_, htail.tail⟩
        intro b hb
        exact (List.chain'_cons'.mp htail).1 b hb
      obtain ⟨pre, lst, heq, hpre, hle2, hch2, hd0, tl0, hht, hhd⟩ :=
        ih (cur.1, e) hc1 hrest2 hc3
      refine ⟨pre, lst, by rw [hres, heq], hpre, hle2, hch2, hd0, tl0, hht, ?_⟩
      rw [hhd]
    · have hkeep : minSec ≤ cur.2 - cur.1 := not_lt.mp hshort
      have hres : mergeSlicesGo minSec cur ((s, e) :: rest2) =
          cur :: mergeSlicesGo minSec (s, e) rest2 := by
        simp only [mergeSlicesGo]
        rw [if_neg hshort]
      obtain ⟨pre, lst, heq, hpre, hle2, hch2, hd0, tl0, hht, hhd⟩ :=
        ih (s, e) hqse hrest2 htail
      refine ⟨cur :: pre, lst, ?_, ?_, ?_, ?_, cur, pre ++ [lst], rfl, rfl⟩
      · rw [hres, heq]
        rfl
      · intro p hp
        rcases List.mem_cons.mp hp with h | h
        · subst h
          exact hkeep
        · exact hpre p h
      · intro p hp
        rw [List.cons_append] at hp
        rcases List.mem_cons.mp hp with h | h
        · subst h
          exact hcur
        · exact hle2 p h
      · rw [List.cons_append]
        refine List.chain'_cons'.mpr ⟨?_, hch2⟩
        intro b hb
        rw [hht, List.head?_cons, Option.mem_def, Option.some.injEq] at hb
        subst hb
        rw [hhd]
        exact hcs

theorem backMergeLast_props (minSec : ℚ) (pre : List (ℚ × ℚ)) (lst : ℚ × ℚ)
    (hpre : ∀ p ∈ pre, minSec ≤ p.2 - p.1)
    (hle : ∀ p ∈ pre ++ [lst], p.1 ≤ p.2)
    (hchain : List.Chain' (fun a b : ℚ × ℚ => a.2 ≤ b.1) (pre ++ [lst])) :
    (∀ p ∈ backMergeLast minSec (pre ++ [lst]), minSec ≤ p.2 - p.1) ∨
      ∃ x, backMergeLast minSec (pre ++ [lst]) = [x] := by
  rcases List.eq_nil_or_concat pre with hnil | ⟨pre2, a, hcat⟩
  · subst hnil
    right
    exact ⟨lst, by simp [backMergeLast]⟩
  · rw [List.concat_eq_append] at hcat
    subst hcat
    have hlast : ((pre2 ++ [a]) ++ [lst]).getLastD (0, 0) = lst :=
      List.getLastD_concat ..
    have hdrop : ((pre2 ++ [a]) ++ [lst]).dropLast = pre2 ++ [a] :=
      List.dropLast_concat ..
    by_cases hshort : lst.2 - lst.1 < minSec
    · left
      have hcond : 2 ≤ ((pre2 ++ [a]) ++ [lst]).length ∧
          (((pre2 ++ [a]) ++ [lst]).getLastD (0, 0)).2 -
            (((pre2 ++ [a]) ++ [lst]).getLastD (0, 0)).1 < minSec := by
        constructor
        · simp only [List.length_append, List.length_singleton]
          omega
        · rw [hlast]
          exact hshort
      rw [backMergeLast, if_pos hcond, hdrop, hlast, List.dropLast_concat,
        List.getLastD_concat]
      have hal : a.2 ≤ lst.1 := by
        have hsuf : [a, lst] <:+ (pre2 ++ [a]) ++ [lst] := by
          refine ⟨pre2, ?_⟩
          simp
        exact (List.chain'_cons.mp (hchain.suffix hsuf)).1
      intro p hp
      rcases List.mem_append.mp hp with h | h
      · exact hpre p (List.mem_append.mpr (Or.inl h))
      · rw [List.mem_singleton] at h
        subst h
        have ha : minSec ≤ a.2 - a.1 := hpre a (by simp)
        have hl2 : lst.1 ≤ lst.2 := hle lst (by simp)
        show minSec ≤ lst.2 - a.1
        linarith
    · left
      have hcond : ¬(2 ≤ ((pre2 ++ [a]) ++ [lst]).length ∧
          (((pre2 ++ [a]) ++ [lst]).getLastD (0, 0)).2 -
            (((pre2 ++ [a]) ++ [lst]).getLastD (0, 0)).1 < minSec) := by
        rw [hlast]
        intro hcon
        exact hshort hcon.2
      rw [backMergeLast, if_neg hcond]
      intro p hp
      rcases List.mem_append.mp hp with h | h
      · exact hpre p h
      · rw [List.mem_singleton] at h
        subst h
        exact not_lt.mp hshort

theorem cleanupGo_all_long (minSec maxSec targetSec : ℚ) :
    ∀ (l acc : List (ℚ × ℚ)), (∀ p ∈ l, minSec ≤ p.2 - p.1) →
      cleanupGo minSec maxSec targetSec acc l = acc ++ l := by
  intro l
  induction l with
  | nil =>
    intro acc h
    simp [cleanupGo]
  | cons p rest ih =>
    intro acc h
    obtain ⟨s, e⟩ := p
    simp only [cleanupGo]
    rw [if_neg ?_]
    · rw [ih (acc ++ [(s, e)]) (fun q hq => h q (List.mem_cons_of_mem _ hq))]
      simp
    · intro hcon
      exact absurd hcon.2 (not_lt.mpr (h (s, e) (List.mem_cons_self _ _)))

theorem cleanupGo_single (minSec maxSec targetSec : ℚ) (s e : ℚ) :
    cleanupGo minSec maxSec targetSec [] [(s, e)] = [(s, e)] := rfl

theorem normalize_tail_bounds (minSec0 targetSec0 maxSec0 : ℚ)
    (hm0 : 1/2 ≤ minSec0) (hmt0 : minSec0 ≤ targetSec0) (htM0 : targetSec0 ≤ maxSec0)
    (h2m0 : 2 * minSec0 ≤ maxSec0)
    (merged : List (ℚ × ℚ))
    (hall : ∀ p ∈ merged, minSec0 ≤ p.2 - p.1) :
    ∀ p ∈ ((cleanupGo minSec0 maxSec0 targetSec0 []
        ((merged.map (fun p => splitOneSlice minSec0 targetSec0 maxSec0 p.1 p.2)).flatten)).filter
          (fun p => 1/2 ≤ p.2 - p.1)).map (fun p => (pyRound3 p.1, pyRound3 p.2)),
      minSec0 - 1/1000 ≤ p.2 - p.1 ∧ p.2 - p.1 ≤ maxSec0 + 1/1000000 + 1/1000 := by
  have hsplit : ∀ q ∈ (merged.map
      (fun p => splitOneSlice minSec0 targetSec0 maxSec0 p.1 p.2)).flatten,
      minSec0 ≤ q.2 - q.1 ∧ q.2 - q.1 ≤ maxSec0 + 1/1000000 := by
    intro q hq
    rw [List.mem_flatten] at hq
    obtain ⟨l, hl, hql⟩ := hq
    rw [List.mem_map] at hl
    obtain ⟨w, hw, rfl⟩ := hl
    exact splitOneSlice_bounds minSec0 targetSec0 maxSec0 hm0 hmt0 htM0 h2m0 w.1 w.2
      (hall w hw) q hql
  rw [cleanupGo_all_long _ _ _ _ [] (fun q hq => (hsplit q hq).1)]
  intro p hp
  rw [List.mem_map] at hp
  obtain ⟨q, hqf, rfl⟩ := hp
  have hq := (List.mem_filter.mp hqf).1
  rw [List.nil_append] at hq
  obtain ⟨hq1, hq2⟩ := hsplit q hq
  obtain ⟨hr1a, hr1b⟩ := pyRound3_bounds q.1
  obtain ⟨hr2a, hr2b⟩ := pyRound3_bounds q.2
  constructor
  · show minSec0 - 1/1000 ≤ pyRound3 q.2 - pyRound3 q.1
    linarith
  · show pyRound3 q.2 - pyRound3 q.1 ≤ maxSec0 + 1/1000000 + 1/1000
    linarith

/-- Claim C3 (amended): with effective bounds `0.5 ≤ min ≤ target ≤ max` and
`2·min ≤ max`, on a sorted non-overlapping slice list every output shot of
`_normalize_slices` has duration within `[min - 0.001, max + 1e-6 + 0.001]`
(the `1e-6` slack comes from the split-loop epsilon, the `0.001` from rounding
the endpoints to 3 decimals), except that the output may instead be a single
shot (or empty) when the merged input collapses to one short slice. -/
theorem shot_bound_invariants (slices : List (ℚ × ℚ)) (minSec0 targetSec0 maxSec0 : ℚ)
    (hm0 : 1/2 ≤ minSec0) (hmt0 : minSec0 ≤ targetSec0) (htM0 : targetSec0 ≤ maxSec0)
    (h2m0 : 2 * minSec0 ≤ maxSec0)
    (hsorted : ∀ p ∈ slices, p.1 ≤ p.2)
    (hchain : List.Chain' (fun a b : ℚ × ℚ => a.2 ≤ b.1) slices) :
    (∀ p ∈ normalize_slices slices minSec0 targetSec0 maxSec0,
        minSec0 - 1/1000 ≤ p.2 - p.1 ∧
          p.2 - p.1 ≤ maxSec0 + 1/1000000 + 1/1000) ∨
      (normalize_slices slices minSec0 targetSec0 maxSec0).length ≤ 1 := by
  have hEmin : max (1/2 : ℚ) minSec0 = minSec0 := max_eq_right hm0
  have hEmax : max minSec0 maxSec0 = maxSec0 := max_eq_right (le_trans hmt0 htM0)
  have hEtgt : max minSec0 (min targetSec0 maxSec0) = targetSec0 := by
    rw [min_eq_left htM0]
    exact max_eq_right hmt0
  cases slices with
  | nil =>
    left
    intro p hp
    simp [normalize_slices] at hp
  | cons first rest =>
    simp only [normalize_slices, hEmin, hEmax, hEtgt]
    obtain ⟨pre, lst, heq, hpre, hle2, hch2, -⟩ :=
      mergeSlicesGo_props minSec0 rest first (hsorted first (List.mem_cons_self _ _))
        (fun p hp => hsorted p (List.mem_cons_of_mem _ hp)) hchain
    rw [heq]
    rcases backMergeLast_props minSec0 pre lst hpre hle2 hch2 with hall | ⟨x, hx⟩
    · exact Or.inl (normalize_tail_bounds minSec0 targetSec0 maxSec0 hm0 hmt0 htM0 h2m0
        _ hall)
    · rw [hx]
      by_cases hxlong : maxSec0 + 1/1000000 < x.2 - x.1
      · refine Or.inl (normalize_tail_bounds minSec0 targetSec0 maxSec0 hm0 hmt0 htM0 h2m0
          [x] ?_)
        intro p hp
        rw [List.mem_singleton] at hp
        subst hp
        linarith
      · right
        have hfx : ([x].map
            (fun p => splitOneSlice minSec0 targetSec0 maxSec0 p.1 p.2)).flatten =
            [(x.1, x.2)] := by
          rw [List.map_singleton]
          simp [splitOneSlice_short minSec0 targetSec0 maxSec0 x.1 x.2 (not_lt.mp hxlong)]
        rw [hfx, cleanupGo_single, List.length_map]
        exact le_trans (List.length_filter_le _ _) (by simp)

/-- Claim C3 as stated is false: with `min = 3 ≤ target = 3.1 ≤ max = 3.2` and
the sorted single-slice input `[(0, 3.3)]`, the output is two shots
`[(0, 0.5), (0.5, 3.3)]` with durations 0.5 and 2.8, both below `min` — not a
single below-min shot. (The pullback `nxt = e - min` plus the `s + 0.5` clamp
produce a 0.5-second chunk whenever `max < 2·min` forces the split point below
`s + 0.5 + min`.) -/
theorem shot_bound_invariants_claim_false :
    (3 : ℚ) ≤ 31/10 ∧ (31/10 : ℚ) ≤ 16/5 ∧
      (∀ p ∈ [((0 : ℚ), (33/10 : ℚ))], p.1 ≤ p.2) ∧
      List.Chain' (fun a b : ℚ × ℚ => a.2 ≤ b.1) [((0 : ℚ), (33/10 : ℚ))] ∧
      normalize_slices [(0, 33/10)] 3 (31/10) (16/5) = [(0, 1/2), (1/2, 33/10)] ∧
      (1/2 : ℚ) - 0 < 3 ∧ (33/10 : ℚ) - 1/2 < 3 ∧
      ([((0 : ℚ), (1/2 : ℚ)), ((1/2 : ℚ), (33/10 : ℚ))] : List (ℚ × ℚ)).length = 2 := by
  have hsplit1 : splitOneSlice 3 (31/10) (16/5) 0 (33/10) = [(0, 1/2), (1/2, 33/10)] := by
    have h4 : (⌈(33/10 : ℚ) - 0⌉ : ℤ) = 4 := by
      rw [Int.ceil_eq_iff]
      norm_num
    have hceil : (2 * (pyCeil ((33/10 : ℚ) - 0)).toNat + 2) = 10 := by
      rw [pyCeil_eq_ceil, h4]
      rfl
    rw [splitOneSlice, hceil]
    rw [show (10 : ℕ) = 9 + 1 from rfl, splitOneAux]
    norm_num
    rw [show (9 : ℕ) = 8 + 1 from rfl, splitOneAux]
    norm_num
  have hmerge : mergeSlicesGo 3 ((0 : ℚ), (33/10 : ℚ)) [] = [(0, 33/10)] := rfl
  have hback : backMergeLast 3 [((0 : ℚ), (33/10 : ℚ))] = [(0, 33/10)] := by
    simp [backMergeLast]
  have hclean : cleanupGo 3 (16/5) (31/10) [] [((0 : ℚ), (1/2 : ℚ)), (1/2, 33/10)] =
      [(0, 1/2), (1/2, 33/10)] := by
    simp only [cleanupGo]
    norm_num [hsplit1]
  have hr0 : pyRound3 0 = 0 := by
    rw [pyRound3, pyRound]
    norm_num [pyFloor_eq_floor, Int.floor_eq_iff]
  have hr12 : pyRound3 (1/2 : ℚ) = 1/2 := by
    rw [pyRound3, pyRound]
    norm_num [pyFloor_eq_floor, Int.floor_eq_iff]
  have hr33 : pyRound3 (33/10 : ℚ) = 33/10 := by
    rw [pyRound3, pyRound]
    norm_num [pyFloor_eq_floor, Int.floor_eq_iff]
  refine ⟨by norm_num, by norm_num, ?_, by simp, ?_, by norm_num, by norm_num, rfl⟩
  · intro p hp
    rw [List.mem_singleton] at hp
    subst hp
    norm_num
  · have hmin : max (1/2 : ℚ) 3 = 3 := by norm_num
    have hmax : max (3 : ℚ) (16/5) = 16/5 := by norm_num
    have htgt : max (3 : ℚ) (min (31/10) (16/5)) = 31/10 := by norm_num
    simp only [normalize_slices, hmin, hmax, htgt, hmerge, hback, List.map_cons,
      List.map_nil, hsplit1, List.flatten]
    norm_num [hclean, List.filter_cons, hr0, hr12, hr33]

/-- Witness for C3 at a concrete input: a lone 2-second slice under
`min = 3, target = 4.5, max = 6` (the spec's own scenario). -/
theorem shot_bound_invariants_witness :
    ((1/2 : ℚ) ≤ 3 ∧ (3 : ℚ) ≤ 9/2 ∧ (9/2 : ℚ) ≤ 6 ∧ 2 * (3 : ℚ) ≤ 6) ∧
      ((∀ p ∈ normalize_slices [((0 : ℚ), (2 : ℚ))] 3 (9/2) 6,
          (3 : ℚ) - 1/1000 ≤ p.2 - p.1 ∧ p.2 - p.1 ≤ 6 + 1/1000000 + 1/1000) ∨
        (normalize_slices [((0 : ℚ), (2 : ℚ))] 3 (9/2) 6).length ≤ 1) := by
  refine ⟨⟨by norm_num, by norm_num, by norm_num, by norm_num⟩, ?_⟩
  refine shot_bound_invariants [((0 : ℚ), (2 : ℚ))] 3 (9/2) 6 (by norm_num) (by norm_num)
    (by norm_num) (by norm_num) ?_ (by simp)
  intro p hp
  rw [List.mem_singleton] at hp
  subst hp
  norm_num

/-! ### Claims C4 and C5 — scheduler coverage and novelty -/

theorem alookup_dictSet_self {κ ν : Type} [DecidableEq κ] (l : List (κ × ν))
    (k : κ) (v : ν) : alookup (dictSet l k v) k = some v := by
  induction l with
  | nil => simp [dictSet, alookup]
  | cons kv rest ih =>
    obtain ⟨k1, v1⟩ := kv
    by_cases h : k = k1
    · subst h
      simp [dictSet, alookup]
    · simp [dictSet, alookup, h, ih]

theorem alookup_dictSet_other {κ ν : Type} [DecidableEq κ] (l : List (κ × ν))
    (k k2 : κ) (v : ν) (hne : k2 ≠ k) :
    alookup (dictSet l k v) k2 = alookup l k2 := by
  induction l with
  | nil => simp [dictSet, alookup, hne]
  | cons kv rest ih =>
    obtain ⟨k1, v1⟩ := kv
    by_cases h : k = k1
    · subst h
      simp [dictSet, alookup, hne]
    · simp only [dictSet]
      rw [if_neg h]
      simp only [alookup]
      by_cases h2 : k2 = k1
      · simp [h2]
      · simp [h2, ih]

theorem insertDescBy_mem {α : Type} (ge : α → α → Bool) (x : α) :
    ∀ (l : List α) (y : α), y ∈ insertDescBy ge x l → y = x ∨ y ∈ l := by
  intro l
  induction l with
  | nil =>
    intro y hy
    rw [insertDescBy, List.mem_singleton] at hy
    exact Or.inl hy
  | cons a rest ih =>
    intro y hy
    rw [insertDescBy] at hy
    by_cases h : ge a x = true
    · rw [if_pos h] at hy
      rcases List.mem_cons.mp hy with h2 | h2
      · exact Or.inr (List.mem_cons.mpr (Or.inl h2))
      · rcases ih y h2 with h3 | h3
        · exact Or.inl h3
        · exact Or.inr (List.mem_cons.mpr (Or.inr h3))
    · rw [if_neg h] at hy
      rcases List.mem_cons.mp hy with h2 | h2
      · exact Or.inl h2
      · exact Or.inr h2

theorem insertDescBy_length {α : Type} (ge : α → α → Bool) (x : α) :
    ∀ l : List α, (insertDescBy ge x l).length = l.length + 1 := by
  intro l
  induction l with
  | nil => rfl
  | cons a rest ih =>
    rw [insertDescBy]
    by_cases h : ge a x = true
    · rw [if_pos h, List.length_cons, ih, List.length_cons]
    · rw [if_neg h]
      rfl

theorem stableSortDesc_subset {α : Type} (ge : α → α → Bool) :
    ∀ (l acc : List α) (y : α),
      y ∈ l.foldl (fun a x => insertDescBy ge x a) acc → y ∈ acc ∨ y ∈ l := by
  intro l
  induction l with
  | nil =>
    intro acc y hy
    exact Or.inl hy
  | cons a rest ih =>
    intro acc y hy
    rcases ih (insertDescBy ge a acc) y hy with h | h
    · rcases insertDescBy_mem ge a acc y h with h2 | h2
      · exact Or.inr (List.mem_cons.mpr (Or.inl h2))
      · exact Or.inl h2
    · exact Or.inr (List.mem_cons.mpr (Or.inr h))

theorem stableSortDesc_mem {α : Type} (ge : α → α → Bool) (l : List α) (y : α)
    (hy : y ∈ stableSortDesc ge l) : y ∈ l := by
  rcases stableSortDesc_subset ge l [] y hy with h | h
  · simp at h
  · exact h

theorem stableSortDesc_length {α : Type} (ge : α → α → Bool) :
    ∀ (l acc : List α),
      (l.foldl (fun a x => insertDescBy ge x a) acc).length = acc.length + l.length := by
  intro l
  induction l with
  | nil =>
    intro acc
    rfl
  | cons a rest ih =>
    intro acc
    rw [List.foldl_cons, ih, insertDescBy_length, List.length_cons]
    omega

theorem headD_mem_of_ne_nil {α : Type} (l : List α) (d : α) (h : l ≠ []) :
    l.headD d ∈ l := by
  cases l with
  | nil => exact absurd rfl h
  | cons a rest => exact List.mem_cons_self _ _

theorem foldl_mem_invariant {α β : Type} (f : List α → β → List α) (P : α → Prop)
    (hstep : ∀ acc b, (∀ c ∈ acc, P c) → ∀ c ∈ f acc b, P c) :
    ∀ (l : List β) (acc : List α), (∀ c ∈ acc, P c) → ∀ c ∈ l.foldl f acc, P c := by
  intro l
  induction l with
  | nil =>
    intro acc h
    exact h
  | cons b rest ih =>
    intro acc h
    exact ih (f acc b) (hstep acc b h)

theorem tierOneCands_mem (shotMap : List ((String × ℤ) × ShotRec))
    (used : List ((String × ℤ) × ℚ)) (outT target dedupWindow : ℚ)
    (sb : List ((String × ℤ) × (ℚ × ℕ × ℕ))) :
    ∀ c ∈ tierOneCands shotMap used outT target dedupWindow sb,
      CandLen shotMap target c ∧ CandCool used outT dedupWindow c := by
  refine foldl_mem_invariant _ _ ?_ sb [] (by simp)
  intro acc kv hacc c hc
  cases hm : alookup shotMap kv.1 with
  | none =>
    rw [hm] at hc
    exact hacc c hc
  | some m =>
    rw [hm] at hc
    simp only at hc
    by_cases hlen : max 0 (m.stop - m.start) + 1/1000000 < target
    · rw [if_pos hlen] at hc
      exact hacc c hc
    · rw [if_neg hlen] at hc
      cases hu : alookup used kv.1 with
      | some last =>
        rw [hu] at hc
        simp only at hc
        by_cases hcool : outT - last < dedupWindow
        · rw [if_pos hcool] at hc
          exact hacc c hc
        · rw [if_neg hcool] at hc
          rcases List.mem_append.mp hc with h | h
          · exact hacc c h
          · rw [List.mem_singleton] at h
            subst h
            constructor
            · exact ⟨m, hm, not_lt.mp hlen⟩
            · intro u hu2
              rw [hu] at hu2
              rw [Option.some_inj] at hu2
              subst hu2
              linarith [not_lt.mp hcool]
      | none =>
        rw [hu] at hc
        simp only at hc
        rcases List.mem_append.mp hc with h | h
        · exact hacc c h
        · rw [List.mem_singleton] at h
          subst h
          constructor
          · exact ⟨m, hm, not_lt.mp hlen⟩
          · intro u hu2
            rw [hu] at hu2
            exact Option.noConfusion hu2

theorem tierTwoCands_mem (shotMap : List ((String × ℤ) × ShotRec)) (target : ℚ)
    (sb : List ((String × ℤ) × (ℚ × ℕ × ℕ))) :
    ∀ c ∈ tierTwoCands shotMap target sb, CandLen shotMap target c := by
  refine foldl_mem_invariant _ _ ?_ sb [] (by simp)
  intro acc kv hacc c hc
  cases hm : alookup shotMap kv.1 with
  | none =>
    rw [hm] at hc
    exact hacc c hc
  | some m =>
    rw [hm] at hc
    simp only at hc
    by_cases hlen : max 0 (m.stop - m.start) + 1/1000000 < target
    · rw [if_pos hlen] at hc
      exact hacc c hc
    · rw [if_neg hlen] at hc
      rcases List.mem_append.mp hc with h | h
      · exact hacc c h
      · rw [List.mem_singleton] at h
        subst h
        exact ⟨m, hm, not_lt.mp hlen⟩

theorem mkSegment_ok (clips : List Clip) (ui : ℕ) (text : List Char)
    (stt ent target : ℚ) (c : Cand) (ss se T : ℚ)
    (htgt : target = max (1/20) (ent - stt))
    (hT1 : ss ≤ T) (hT2 : T + target ≤ se + 1/1000000) :
    SegOK (mkSegment clips ui text stt ent target c ss se T) ∧
      (mkSegment clips ui text stt ent target c ss se T).start = stt ∧
      (mkSegment clips ui text stt ent target c ss se T).stop = ent ∧
      (mkSegment clips ui text stt ent target c ss se T).source = c.src ∧
      (mkSegment clips ui text stt ent target c ss se T).shot_id = c.sid ∧
      (mkSegment clips ui text stt ent target c ss se T).out_t -
        (mkSegment clips ui text stt ent target c ss se T).in_t = target := by
  have h20 : 1/20 ≤ target := htgt ▸ le_max_left _ _
  refine ⟨⟨?_, ?_, ?_, ?_⟩, rfl, rfl, rfl, rfl, ?_⟩
  · show (T + target) - T = max (1/20) (ent - stt)
    rw [← htgt]
    ring
  · exact hT1
  · show T < T + target
    linarith
  · exact hT2
  · show (T + target) - T = target
    ring

theorem tryCands_spec (shotMap : List ((String × ℤ) × ShotRec)) (clips : List Clip)
    (minGap target : ℚ) (prevSrc : Option String) (prevOut : Option ℚ)
    (ui : ℕ) (text : List Char) (stt ent : ℚ)
    (htgt : target = max (1/20) (ent - stt)) :
    ∀ (l : List Cand) (seg : Segment),
      tryCands shotMap clips minGap target prevSrc prevOut ui text stt ent l =
        some seg →
      (∃ c ∈ l, seg.source = c.src ∧ seg.shot_id = c.sid) ∧
      SegOK seg ∧ seg.start = stt ∧ seg.stop = ent ∧
      seg.out_t - seg.in_t = target := by
  intro l
  induction l with
  | nil =>
    intro seg h
    simp [tryCands] at h
  | cons c rest ih =>
    intro seg h
    have hfwd : tryCands shotMap clips minGap target prevSrc prevOut ui text stt ent
        rest = some seg →
        (∃ c2 ∈ c :: rest, seg.source = c2.src ∧ seg.shot_id = c2.sid) ∧
        SegOK seg ∧ seg.start = stt ∧ seg.stop = ent ∧
        seg.out_t - seg.in_t = target := by
      intro h2
      obtain ⟨⟨c2, hc2, hsrc⟩, hrest⟩ := ih seg h2
      exact ⟨⟨c2, List.mem_cons_of_mem _ hc2, hsrc⟩, hrest⟩
    rw [tryCands] at h
    cases hm : alookup shotMap (c.src, c.sid) with
    | none =>
      rw [hm] at h
      exact hfwd h
    | some m =>
      rw [hm] at h
      simp only at h
      by_cases hdur : m.stop - m.start + 1/1000000 < target
      · rw [if_pos hdur] at h
        exact hfwd h
      · rw [if_neg hdur] at h
        have hfit : target ≤ m.stop - m.start + 1/1000000 := not_lt.mp hdur
        have hmk : ∀ T : ℚ, m.start ≤ T → T + target ≤ m.stop + 1/1000000 →
            mkSegment clips ui text stt ent target c m.start m.stop T = seg →
            (∃ c2 ∈ c :: rest, seg.source = c2.src ∧ seg.shot_id = c2.sid) ∧
            SegOK seg ∧ seg.start = stt ∧ seg.stop = ent ∧
            seg.out_t - seg.in_t = target := by
          intro T hT1 hT2 hT3
          subst hT3
          obtain ⟨hok, hst, hen, hsrc, hsid, hdur2⟩ :=
            mkSegment_ok clips ui text stt ent target c m.start m.stop T htgt hT1 hT2
          exact ⟨⟨c, List.mem_cons_self _ _, hsrc, hsid⟩, hok, hst, hen, hdur2⟩
        have hin0a : m.start ≤ max m.start
            (min (((clips.getD c.ci default).start + (clips.getD c.ci default).stop) / 2
              - target / 2) (m.stop - target)) := le_max_left _ _
        have hin0b : max m.start
            (min (((clips.getD c.ci default).start + (clips.getD c.ci default).stop) / 2
              - target / 2) (m.stop - target)) + target ≤ m.stop + 1/1000000 := by
          have h1 : min (((clips.getD c.ci default).start +
              (clips.getD c.ci default).stop) / 2 - target / 2) (m.stop - target) ≤
              m.stop - target := min_le_right _ _
          have h2 : max m.start
              (min (((clips.getD c.ci default).start +
                (clips.getD c.ci default).stop) / 2 - target / 2) (m.stop - target)) ≤
              max m.start (m.stop - target) := max_le_max (le_refl _) h1
          have h3 : max m.start (m.stop - target) ≤ m.stop - target + 1/1000000 :=
            max_le (by linarith) (by linarith)
          linarith
        cases prevSrc with
        | none =>
          simp only at h
          rw [Option.some_inj] at h
          exact hmk _ hin0a hin0b h
        | some ps =>
          cases prevOut with
          | none =>
            simp only at h
            rw [Option.some_inj] at h
            exact hmk _ hin0a hin0b h
          | some pot =>
            simp only at h
            by_cases hsame : ps ≠ "" ∧ ps = c.src
            · rw [if_pos hsame] at h
              by_cases hclose : max m.start
                  (min (((clips.getD c.ci default).start +
                    (clips.getD c.ci default).stop) / 2 - target / 2)
                    (m.stop - target)) < pot + max 0 minGap
              · rw [if_pos hclose] at h
                by_cases hshift : max m.start
                    (min (((clips.getD c.ci default).start +
                      (clips.getD c.ci default).stop) / 2 - target / 2)
                      (m.stop - target)) + 1/1000 <
                    min (max (max m.start
                      (min (((clips.getD c.ci default).start +
                        (clips.getD c.ci default).stop) / 2 - target / 2)
                        (m.stop - target))) (pot + max 0 minGap)) (m.stop - target)
                · rw [if_pos hshift] at h
                  rw [Option.some_inj] at h
                  refine hmk _ ?_ ?_ h
                  · linarith [hin0a]
                  · have h1 : min (max (max m.start
                        (min (((clips.getD c.ci default).start +
                          (clips.getD c.ci default).stop) / 2 - target / 2)
                          (m.stop - target))) (pot + max 0 minGap)) (m.stop - target) ≤
                        m.stop - target := min_le_right _ _
                    linarith
                · rw [if_neg hshift] at h
                  exact hfwd h
              · rw [if_neg hclose] at h
                rw [Option.some_inj] at h
                exact hmk _ hin0a hin0b h
            · rw [if_neg hsame] at h
              rw [Option.some_inj] at h
              exact hmk _ hin0a hin0b h

theorem pickCand2_subset (cand : List Cand) : ∀ c ∈ pickCand2 cand, c ∈ cand := by
  intro c hc
  simp only [pickCand2] at hc
  by_cases h1 : cand.any (fun x => decide (0 < x.hit)) = true
  · rw [if_pos h1] at hc
    by_cases h2 : (cand.filter (fun x => decide (0 < x.hit))).isEmpty = true
    · rw [if_pos h2] at hc
      exact hc
    · rw [if_neg h2] at hc
      exact List.mem_of_mem_filter hc
  · rw [if_neg h1] at hc
    exact hc

theorem pickCand2_ne_nil (cand : List Cand) (h : cand ≠ []) : pickCand2 cand ≠ [] := by
  simp only [pickCand2]
  by_cases h1 : cand.any (fun x => decide (0 < x.hit)) = true
  · rw [if_pos h1]
    by_cases h2 : (cand.filter (fun x => decide (0 < x.hit))).isEmpty = true
    · rw [if_pos h2]
      exact h
    · rw [if_neg h2]
      intro hc
      exact h2 (by rw [hc]; rfl)
  · rw [if_neg h1]
    exact h

theorem pickStep_core (shotMap : List ((String × ℤ) × ShotRec)) (clips : List Clip)
    (mG : ℚ) (st : PickState) (ui : ℕ) (text : List Char) (stt ent : ℚ)
    (cand : List Cand)
    (hclen : ∀ c ∈ cand, CandLen shotMap (pickTarget stt ent) c)
    (hne : ¬(cand.isEmpty = true))
    (seg : Segment)
    (hseg : (match tryCands shotMap clips mG (pickTarget stt ent) st.prev_src
        st.prev_out_src_t ui text stt ent
        ((stableSortDesc candKeyGeq (pickCand2 cand)).take 240) with
      | some s => s
      | none => pickFallback shotMap clips (pickTarget stt ent) ui text stt ent
          (stableSortDesc candKeyGeq (pickCand2 cand))) = seg) :
    SegOK seg ∧ seg.start = stt ∧ seg.stop = ent ∧
      seg.out_t - seg.in_t = pickTarget stt ent ∧
      ∃ c ∈ cand, seg.source = c.src ∧ seg.shot_id = c.sid := by
  have hcne : cand ≠ [] := fun hcon => hne (by rw [hcon]; rfl)
  have hsne : stableSortDesc candKeyGeq (pickCand2 cand) ≠ [] := by
    intro hcon
    have hl := stableSortDesc_length candKeyGeq (pickCand2 cand) []
    have hzero := congrArg List.length hcon
    rw [stableSortDesc] at hzero
    rw [hl] at hzero
    simp only [List.length_nil] at hzero
    exact pickCand2_ne_nil cand hcne (List.length_eq_zero.mp (by omega))
  split at hseg
  · next s heq =>
    subst hseg
    obtain ⟨⟨c2, hc2, hsrc, hsid⟩, hok, hsta, hsto, hdur⟩ :=
      tryCands_spec shotMap clips mG (pickTarget stt ent) st.prev_src st.prev_out_src_t
        ui text stt ent rfl _ s heq
    refine ⟨hok, hsta, hsto, hdur, c2, ?_, hsrc, hsid⟩
    exact pickCand2_subset cand c2
      (stableSortDesc_mem candKeyGeq (pickCand2 cand) c2 (List.take_subset _ _ hc2))
  · next heq =>
    subst hseg
    have hcmem : (stableSortDesc candKeyGeq (pickCand2 cand)).headD default ∈ cand :=
      pickCand2_subset cand _
        (stableSortDesc_mem candKeyGeq (pickCand2 cand) _
          (headD_mem_of_ne_nil _ default hsne))
    obtain ⟨mr, hmr, hlen2⟩ := hclen _ hcmem
    have htpos : 1/20 ≤ pickTarget stt ent := le_max_left _ _
    have hms : pickTarget stt ent ≤ mr.stop - mr.start + 1/1000000 := by
      rcases le_or_lt (mr.stop - mr.start) 0 with hle0 | hgt0
      · exfalso
        rw [max_eq_left hle0] at hlen2
        linarith
      · rw [max_eq_right (le_of_lt hgt0)] at hlen2
        exact hlen2
    simp only [pickFallback, hmr, Option.getD_some]
    have hin0a : mr.start ≤ max mr.start
        (min ((((clips.getD ((stableSortDesc candKeyGeq (pickCand2 cand)).headD
            default).ci default).start +
          (clips.getD ((stableSortDesc candKeyGeq (pickCand2 cand)).headD
            default).ci default).stop) / 2 - pickTarget stt ent / 2))
          (mr.stop - pickTarget stt ent)) := le_max_left _ _
    have hin0b : max mr.start
        (min ((((clips.getD ((stableSortDesc candKeyGeq (pickCand2 cand)).headD
            default).ci default).start +
          (clips.getD ((stableSortDesc candKeyGeq (pickCand2 cand)).headD
            default).ci default).stop) / 2 - pickTarget stt ent / 2))
          (mr.stop - pickTarget stt ent)) + pickTarget stt ent ≤
        mr.stop + 1/1000000 := by
      have h1 : min ((((clips.getD ((stableSortDesc candKeyGeq (pickCand2 cand)).headD
            default).ci default).start +
          (clips.getD ((stableSortDesc candKeyGeq (pickCand2 cand)).headD
            default).ci default).stop) / 2 - pickTarget stt ent / 2))
          (mr.stop - pickTarget stt ent) ≤ mr.stop - pickTarget stt ent :=
        min_le_right _ _
      have h2 := max_le_max (le_refl mr.start) h1
      have h3 : max mr.start (mr.stop - pickTarget stt ent) ≤
          mr.stop - pickTarget stt ent + 1/1000000 :=
        max_le (by linarith) (by linarith)
      linarith
    obtain ⟨hok, hsta, hsto, hsrc, hsid, hdur⟩ :=
      mkSegment_ok clips ui text stt ent (pickTarget stt ent) _ mr.start mr.stop _
        rfl hin0a hin0b
    exact ⟨hok, hsta, hsto, hdur, _, hcmem, hsrc, hsid⟩

theorem pickUnitStep_spec (shotMap : List ((String × ℤ) × ShotRec)) (clips : List Clip)
    (sims : List (List ℚ)) (dW kB shp mG : ℚ) (st : PickState) (ui : ℕ)
    (text : List Char) (hints : List (List Char)) (stt ent : ℚ)
    (seg : Segment) (tier : ℕ) (st1 : PickState)
    (h : pickUnitStep shotMap clips sims dW kB shp mG st ui text hints stt ent =
      .ok (seg, tier, st1)) :
    SegOK seg ∧ seg.start = stt ∧ seg.stop = ent ∧
      st1.used = dictSet st.used (seg.source, seg.shot_id) st.out_t ∧
      st1.out_t = st.out_t + (seg.out_t - seg.in_t) ∧
      (tier = 1 → ∀ u, alookup st.used (seg.source, seg.shot_id) = some u →
        u + dW ≤ st.out_t) := by
  simp only [pickUnitStep] at h
  by_cases hc1 : (tierOneCands shotMap st.used st.out_t (pickTarget stt ent) dW
      (shotBestFor kB shp hints (pickScores sims clips ui) clips)).isEmpty = true
  · rw [if_pos hc1, if_pos hc1] at h
    by_cases hce : (tierTwoCands shotMap (pickTarget stt ent)
        (shotBestFor kB shp hints (pickScores sims clips ui) clips)).isEmpty = true
    · rw [if_pos hce] at h
      split at h <;> exact Except.noConfusion h
    · rw [if_neg hce] at h
      rw [Except.ok.injEq] at h
      have hch := congrArg (fun t : Segment × ℕ × PickState => t.1) h
      have hti := congrArg (fun t : Segment × ℕ × PickState => t.2.1) h
      have hst := congrArg (fun t : Segment × ℕ × PickState => t.2.2) h
      simp only at hch hti hst
      obtain ⟨hok, hsta, hsto, hdur, c0, hc0, hsrc0, hsid0⟩ :=
        pickStep_core shotMap clips mG st ui text stt ent _
          (fun c hc => tierTwoCands_mem shotMap (pickTarget stt ent) _ c hc) hce seg hch
      refine ⟨hok, hsta, hsto, ?_, ?_, ?_⟩
      · rw [← hst, ← hch]
      · rw [← hst, hdur]
      · intro h1
        rw [← hti] at h1
        exact absurd h1 (by norm_num)
  · rw [if_neg hc1, if_neg hc1] at h
    rw [if_neg hc1] at h
    rw [Except.ok.injEq] at h
    have hch := congrArg (fun t : Segment × ℕ × PickState => t.1) h
    have hti := congrArg (fun t : Segment × ℕ × PickState => t.2.1) h
    have hst := congrArg (fun t : Segment × ℕ × PickState => t.2.2) h
    simp only at hch hti hst
    obtain ⟨hok, hsta, hsto, hdur, c0, hc0, hsrc0, hsid0⟩ :=
      pickStep_core shotMap clips mG st ui text stt ent _
        (fun c hc => (tierOneCands_mem shotMap st.used st.out_t (pickTarget stt ent)
          dW _ c hc).1) hc1 seg hch
    refine ⟨hok, hsta, hsto, ?_, ?_, ?_⟩
    · rw [← hst, ← hch]
    · rw [← hst, hdur]
    · intro h1 u hu
      have hcool := (tierOneCands_mem shotMap st.used st.out_t (pickTarget stt ent)
        dW _ c0 hc0).2
      rw [hsrc0, hsid0] at hu
      exact hcool u hu

theorem prefixDur_zero (l : List (Segment × ℕ)) : prefixDur l 0 = 0 := rfl

theorem prefixDur_succ (x : Segment × ℕ) (l : List (Segment × ℕ)) (k : ℕ) :
    prefixDur (x :: l) (k + 1) = (x.1.out_t - x.1.in_t) + prefixDur l k := by
  simp [prefixDur]

theorem prefixDur_nonneg (l : List (Segment × ℕ))
    (h : ∀ x ∈ l, 1/20 ≤ x.1.out_t - x.1.in_t) (k : ℕ) : 0 ≤ prefixDur l k := by
  unfold prefixDur
  apply List.sum_nonneg
  intro q hq
  rw [List.mem_map] at hq
  obtain ⟨x, hx, rfl⟩ := hq
  have := h x (List.take_subset _ _ hx)
  linarith

theorem pickGo_segok (shotMap : List ((String × ℤ) × ShotRec)) (clips : List Clip)
    (sims : List (List ℚ)) (dW kB shp mG : ℚ) :
    ∀ (units : List (ℕ × List Char × List (List Char) × ℚ × ℚ)) (st : PickState)
      (l : List (Segment × ℕ)),
      pickGo shotMap clips sims dW kB shp mG st units = .ok l →
      ∀ q ∈ l, SegOK q.1 := by
  intro units
  induction units with
  | nil =>
    intro st l h q hq
    simp only [pickGo] at h
    rw [Except.ok.injEq] at h
    subst h
    simp at hq
  | cons u rest ih =>
    intro st l h q hq
    obtain ⟨ui, text, hints, stt, ent⟩ := u
    simp only [pickGo] at h
    split at h
    · exact Except.noConfusion h
    · next seg tier st1 heq =>
      split at h
      · exact Except.noConfusion h
      · next l2 heq2 =>
        rw [Except.ok.injEq] at h
        subst h
        rcases List.mem_cons.mp hq with h1 | h1
        · subst h1
          exact (pickUnitStep_spec _ _ _ _ _ _ _ _ _ _ _ _ _ _ _ _ heq).1
        · exact ih st1 l2 heq2 q h1

theorem pick_trace_segok (unitTexts : List (List Char))
    (unitHints0 : List (List (List Char))) (unitTimes : List (ℚ × ℚ))
    (clips : List Clip) (sims : List (List ℚ)) (dW kB shp mG : ℚ)
    (l : List (Segment × ℕ))
    (h : pick_visual_segments_edgetts_trace unitTexts unitHints0 unitTimes clips sims
      dW kB shp mG = .ok l) :
    ∀ q ∈ l, SegOK q.1 := by
  simp only [pick_visual_segments_edgetts_trace] at h
  split at h
  · rw [Except.ok.injEq] at h
    subst h
    intro q hq
    simp at hq
  · split at h
    · exact Except.noConfusion h
    · split at h
      · exact Except.noConfusion h
      · exact pickGo_segok _ _ _ _ _ _ _ _ _ _ h

/-- Claim C4 (amended): for every returned timeline segment of the EdgeTTS
scheduler, `out - in` equals the unit's target duration
`max(0.05, unit_end - unit_start)` (the tier-3 clamp never completes: it
raises a `ValueError`), and the window sits inside the chosen shot's bounds up
to the candidate filter's epsilon: `shot_start ≤ in < out ≤ shot_end + 1e-6`
— the upper bound can genuinely exceed `shot_end` by up to `1e-6`. -/
theorem scheduler_coverage (unitTexts : List (List Char))
    (unitHints0 : List (List (List Char))) (unitTimes : List (ℚ × ℚ))
    (clips : List Clip) (sims : List (List ℚ)) (dW kB shp mG : ℚ)
    (segs : List Segment)
    (h : pick_visual_segments_edgetts unitTexts unitHints0 unitTimes clips sims
      dW kB shp mG = .ok segs) :
    ∀ seg ∈ segs,
      seg.out_t - seg.in_t = max (1/20) (seg.stop - seg.start) ∧
        seg.shot_start ≤ seg.in_t ∧ seg.in_t < seg.out_t ∧
        seg.out_t ≤ seg.shot_end + 1/1000000 := by
  rw [pick_visual_segments_edgetts] at h
  cases htr : pick_visual_segments_edgetts_trace unitTexts unitHints0 unitTimes clips
      sims dW kB shp mG with
  | error e =>
    rw [htr] at h
    simp [Except.map] at h
  | ok l =>
    rw [htr] at h
    simp only [Except.map] at h
    rw [Except.ok.injEq] at h
    subst h
    intro seg hseg
    rw [List.mem_map] at hseg
    obtain ⟨q, hq, rfl⟩ := hseg
    exact pick_trace_segok unitTexts unitHints0 unitTimes clips sims dW kB shp mG l
      htr q hq

theorem pickGo_dedup (shotMap : List ((String × ℤ) × ShotRec)) (clips : List Clip)
    (sims : List (List ℚ)) (dW kB shp mG : ℚ) :
    ∀ (units : List (ℕ × List Char × List (List Char) × ℚ × ℚ)) (st : PickState)
      (l : List (Segment × ℕ)),
      pickGo shotMap clips sims dW kB shp mG st units = .ok l →
      (∀ x ∈ l, x.2 = 1) →
      (∀ x ∈ l, 1/20 ≤ x.1.out_t - x.1.in_t) ∧
      (∀ (k : ℕ) (hk : k < l.length) (u : ℚ),
          alookup st.used (segKey (l.get ⟨k, hk⟩)) = some u →
          u + dW ≤ st.out_t + prefixDur l k) ∧
      (∀ (k1 k2 : ℕ) (hk1 : k1 < l.length) (hk2 : k2 < l.length), k1 < k2 →
          segKey (l.get ⟨k1, hk1⟩) = segKey (l.get ⟨k2, hk2⟩) →
          prefixDur l k1 + dW ≤ prefixDur l k2) := by
  intro units
  induction units with
  | nil =>
    intro st l h htier
    simp only [pickGo] at h
    rw [Except.ok.injEq] at h
    subst h
    refine ⟨by simp, ?_, ?_⟩
    · intro k hk
      simp at hk
    · intro k1 k2 hk1 hk2
      simp at hk1
  | cons u rest ih =>
    intro st l h htier
    obtain ⟨ui, text, hints, stt, ent⟩ := u
    simp only [pickGo] at h
    split at h
    · exact Except.noConfusion h
    · next seg tier st1 heq =>
      split at h
      · exact Except.noConfusion h
      · next l2 heq2 =>
        rw [Except.ok.injEq] at h
        subst h
        have ht1 : tier = 1 := htier (seg, tier) (List.mem_cons_self _ _)
        subst ht1
        obtain ⟨hok, hsta, hsto, hused, hout, hcool⟩ :=
          pickUnitStep_spec _ _ _ _ _ _ _ _ _ _ _ _ _ _ _ _ heq
        have hdur0 : 1/20 ≤ seg.out_t - seg.in_t := by
          rw [hok.1]
          exact le_max_left _ _
        obtain ⟨ihC, ihA, ihB⟩ :=
          ih st1 l2 heq2 (fun x hx => htier x (List.mem_cons_of_mem _ hx))
        have hC : ∀ x ∈ ((seg, 1) : Segment × ℕ) :: l2, 1/20 ≤ x.1.out_t - x.1.in_t := by
          intro x hx
          rcases List.mem_cons.mp hx with h1 | h1
          · subst h1
            exact hdur0
          · exact ihC x h1
        have hpnn : ∀ k : ℕ, 0 ≤ prefixDur l2 k := fun k => prefixDur_nonneg l2 ihC k
        refine ⟨hC, ?_, ?_⟩
        · intro k hk u hu
          cases k with
          | zero =>
            have hget : (((seg, 1) : Segment × ℕ) :: l2).get ⟨0, hk⟩ = (seg, 1) := rfl
            rw [hget] at hu
            have hc := hcool rfl u hu
            have hp0 : prefixDur (((seg, 1) : Segment × ℕ) :: l2) 0 = 0 := rfl
            rw [hp0]
            linarith
          | succ k2 =>
            have hk2 : k2 < l2.length := by
              simp only [List.length_cons] at hk
              omega
            have hget : (((seg, 1) : Segment × ℕ) :: l2).get ⟨k2 + 1, hk⟩ =
                l2.get ⟨k2, hk2⟩ := rfl
            rw [hget] at hu
            have hps : prefixDur (((seg, 1) : Segment × ℕ) :: l2) (k2 + 1) =
                (seg.out_t - seg.in_t) + prefixDur l2 k2 := prefixDur_succ ..
            by_cases hK : segKey (l2.get ⟨k2, hk2⟩) = (seg.source, seg.shot_id)
            · rw [hK] at hu
              have hc := hcool rfl u hu
              have := hpnn k2
              rw [hps]
              linarith
            · have hu2 : alookup st1.used (segKey (l2.get ⟨k2, hk2⟩)) = some u := by
                rw [hused, alookup_dictSet_other _ _ _ _ hK]
                exact hu
              have hA := ihA k2 hk2 u hu2
              rw [hout] at hA
              rw [hps]
              linarith
        · intro k1 k2 hk1 hk2 hlt hkey
          cases k1 with
          | zero =>
            cases k2 with
            | zero => omega
            | succ k2p =>
              have hk2p : k2p < l2.length := by
                simp only [List.length_cons] at hk2
                omega
              have hget1 : (((seg, 1) : Segment × ℕ) :: l2).get ⟨0, hk1⟩ = (seg, 1) := rfl
              have hget2 : (((seg, 1) : Segment × ℕ) :: l2).get ⟨k2p + 1, hk2⟩ =
                  l2.get ⟨k2p, hk2p⟩ := rfl
              rw [hget1, hget2] at hkey
              have hu2 : alookup st1.used (segKey (l2.get ⟨k2p, hk2p⟩)) =
                  some st.out_t := by
                rw [← hkey, hused]
                exact alookup_dictSet_self _ _ _
              have hA := ihA k2p hk2p st.out_t hu2
              rw [hout] at hA
              have hp0 : prefixDur (((seg, 1) : Segment × ℕ) :: l2) 0 = 0 := rfl
              have hps : prefixDur (((seg, 1) : Segment × ℕ) :: l2) (k2p + 1) =
                  (seg.out_t - seg.in_t) + prefixDur l2 k2p := prefixDur_succ ..
              rw [hp0, hps]
              linarith
          | succ k1p =>
            cases k2 with
            | zero => omega
            | succ k2p =>
              have hk1p : k1p < l2.length := by
                simp only [List.length_cons] at hk1
                omega
              have hk2p : k2p < l2.length := by
                simp only [List.length_cons] at hk2
                omega
              have hget1 : (((seg, 1) : Segment × ℕ) :: l2).get ⟨k1p + 1, hk1⟩ =
                  l2.get ⟨k1p, hk1p⟩ := rfl
              have hget2 : (((seg, 1) : Segment × ℕ) :: l2).get ⟨k2p + 1, hk2⟩ =
                  l2.get ⟨k2p, hk2p⟩ := rfl
              rw [hget1, hget2] at hkey
              have hB := ihB k1p k2p hk1p hk2p (by omega) hkey
              have hps1 : prefixDur (((seg, 1) : Segment × ℕ) :: l2) (k1p + 1) =
                  (seg.out_t - seg.in_t) + prefixDur l2 k1p := prefixDur_succ ..
              have hps2 : prefixDur (((seg, 1) : Segment × ℕ) :: l2) (k2p + 1) =
                  (seg.out_t - seg.in_t) + prefixDur l2 k2p := prefixDur_succ ..
              rw [hps1, hps2]
              linarith

/-- Claim C5: in a run where every unit was satisfied by the tier-1
(cooldown-respecting) candidate set, no shot identity `(source, shot_id)` is
selected for two narration units whose output-time gap — cumulative emitted
seconds between the two selections — is below the cooldown window. -/
theorem scheduler_novelty (unitTexts : List (List Char))
    (unitHints0 : List (List (List Char))) (unitTimes : List (ℚ × ℚ))
    (clips : List Clip) (sims : List (List ℚ)) (dW kB shp mG : ℚ)
    (l : List (Segment × ℕ))
    (h : pick_visual_segments_edgetts_trace unitTexts unitHints0 unitTimes clips sims
      dW kB shp mG = .ok l)
    (htier : ∀ x ∈ l, x.2 = 1) :
    ∀ (k1 k2 : ℕ) (hk1 : k1 < l.length) (hk2 : k2 < l.length), k1 < k2 →
      segKey (l.get ⟨k1, hk1⟩) = segKey (l.get ⟨k2, hk2⟩) →
      prefixDur l k1 + dW ≤ prefixDur l k2 := by
  simp only [pick_visual_segments_edgetts_trace] at h
  split at h
  · rw [Except.ok.injEq] at h
    subst h
    intro k1 k2 hk1 hk2
    simp at hk1
  · split at h
    · exact Except.noConfusion h
    · split at h
      · exact Except.noConfusion h
      · exact (pickGo_dedup _ _ _ _ _ _ _ _ _ _ h htier).2.2

theorem pickRunEval :
    pick_visual_segments_edgetts_trace ["t".data] [] [(0, 10)]
      [⟨"c1", "src", "x".data, [], 0, 10 - 1/2000000, 0, some 0, some (10 - 1/2000000)⟩]
      [] 0 0 0 0 =
    .ok [(⟨0, "t".data, "src", 0, 10, 0, 0, 10 - 1/2000000, 0, 0, "c1", 0, 10⟩, 1)] := by
  norm_num +decide [pick_visual_segments_edgetts_trace, pickGo, pickUnitStep, pickTarget,
    pickScores, pickCand2, tryCands, tierOneCands, tierTwoCands, pickFallback,
    shotBestFor, clipAdjScore, overlapBonus, build_shot_index, shotBoundsOf,
    updateShotMap, alookup, dictSet, stableSortDesc, insertDescBy, candKeyGeq,
    mkSegment, List.enum, List.enumFrom, List.getD, Option.getD]

/-- Claim C4 as stated is false: on a shot whose recorded end is
`10 - 1/2000000` and a 10-second unit, the scheduler places the window
`[0, 10]`, whose out-point exceeds the shot end (the tier-1/2 filter and the
placement check both allow a `1e-6` shortfall of the shot length). -/
theorem scheduler_coverage_claim_false :
    pick_visual_segments_edgetts ["t".data] [] [(0, 10)]
      [⟨"c1", "src", "x".data, [], 0, 10 - 1/2000000, 0, some 0, some (10 - 1/2000000)⟩]
      [] 0 0 0 0 =
      .ok [⟨0, "t".data, "src", 0, 10, 0, 0, 10 - 1/2000000, 0, 0, "c1", 0, 10⟩] ∧
      ¬((10 : ℚ) ≤ 10 - 1/2000000) := by
  constructor
  · rw [pick_visual_segments_edgetts, pickRunEval]
    rfl
  · norm_num

/-- Witness for C4: the amended per-segment bounds hold on the concrete run. -/
theorem scheduler_coverage_witness :
    pick_visual_segments_edgetts ["t".data] [] [(0, 10)]
      [⟨"c1", "src", "x".data, [], 0, 10 - 1/2000000, 0, some 0, some (10 - 1/2000000)⟩]
      [] 0 0 0 0 =
      .ok [⟨0, "t".data, "src", 0, 10, 0, 0, 10 - 1/2000000, 0, 0, "c1", 0, 10⟩] ∧
      ∀ seg ∈ [(⟨0, "t".data, "src", 0, 10, 0, 0, 10 - 1/2000000, 0, 0, "c1", 0, 10⟩ :
          Segment)],
        seg.out_t - seg.in_t = max (1/20) (seg.stop - seg.start) ∧
          seg.shot_start ≤ seg.in_t ∧ seg.in_t < seg.out_t ∧
          seg.out_t ≤ seg.shot_end + 1/1000000 := by
  have hok : pick_visual_segments_edgetts ["t".data] [] [(0, 10)]
      [⟨"c1", "src", "x".data, [], 0, 10 - 1/2000000, 0, some 0, some (10 - 1/2000000)⟩]
      [] 0 0 0 0 =
      .ok [⟨0, "t".data, "src", 0, 10, 0, 0, 10 - 1/2000000, 0, 0, "c1", 0, 10⟩] := by
    rw [pick_visual_segments_edgetts, pickRunEval]
    rfl
  exact ⟨hok, scheduler_coverage _ _ _ _ _ _ _ _ _ _ hok⟩

/-- Witness for C5: the cooldown conclusion instantiated on a concrete all-tier-1
run. -/
theorem scheduler_novelty_witness :
    pick_visual_segments_edgetts_trace ["t".data] [] [(0, 10)]
      [⟨"c1", "src", "x".data, [], 0, 10 - 1/2000000, 0, some 0, some (10 - 1/2000000)⟩]
      [] 0 0 0 0 =
      .ok [(⟨0, "t".data, "src", 0, 10, 0, 0, 10 - 1/2000000, 0, 0, "c1", 0, 10⟩, 1)] ∧
      (∀ x ∈ [((⟨0, "t".data, "src", 0, 10, 0, 0, 10 - 1/2000000, 0, 0, "c1", 0, 10⟩ :
          Segment), 1)], x.2 = 1) ∧
      ∀ (k1 k2 : ℕ)
        (hk1 : k1 < ([(⟨0, "t".data, "src", 0, 10, 0, 0, 10 - 1/2000000, 0, 0, "c1",
          0, 10⟩, 1)] : List (Segment × ℕ)).length)
        (hk2 : k2 < ([(⟨0, "t".data, "src", 0, 10, 0, 0, 10 - 1/2000000, 0, 0, "c1",
          0, 10⟩, 1)] : List (Segment × ℕ)).length),
        k1 < k2 →
        segKey (([(⟨0, "t".data, "src", 0, 10, 0, 0, 10 - 1/2000000, 0, 0, "c1",
          0, 10⟩, 1)] : List (Segment × ℕ)).get ⟨k1, hk1⟩) =
          segKey (([(⟨0, "t".data, "src", 0, 10, 0, 0, 10 - 1/2000000, 0, 0, "c1",
            0, 10⟩, 1)] : List (Segment × ℕ)).get ⟨k2, hk2⟩) →
        prefixDur [(⟨0, "t".data, "src", 0, 10, 0, 0, 10 - 1/2000000, 0, 0, "c1",
          0, 10⟩, 1)] k1 + 0 ≤
          prefixDur [(⟨0, "t".data, "src", 0, 10, 0, 0, 10 - 1/2000000, 0, 0, "c1",
            0, 10⟩, 1)] k2 := by
  refine ⟨pickRunEval, ?_, ?_⟩
  · intro x hx
    rw [List.mem_singleton] at hx
    subst hx
    rfl
  · refine scheduler_novelty _ _ _ _ _ _ _ _ _ _ pickRunEval ?_
    intro x hx
    rw [List.mem_singleton] at hx
    subst hx
    rfl

end Gist
